import Mathlib

/-!
Verification of the repository-analysis core of RepoSage
(`backend/chatbot.py`, class `RepoAnalyzer`) against its specification.

The Python code is shallowly embedded: every string manipulation is
modelled on `List Char` (Python `str` slicing/splitting is character
based), Git/VCS subprocess calls are modelled as an oracle record of
fallible functions (`Except PyExn`), Python exceptions are `PyExn`
values, and dictionaries are association lists whose keys are unique.
The embedding additionally records the trace of VCS operations a call
performs, so that "no subprocess call" / "no fetch" properties are
statable.  The sentence-transformer embedding provider and the numpy
cosine similarity are external collaborators; they are parameters
(`encode`, `cosineSim`) with an arbitrary linearly ordered score type,
since the ranking logic of the source only ever compares scores.
-/

/-! ## Character-level string utilities (Python `str` semantics) -/

/-- Python whitespace test used by `str.strip()`. -/
def isPyWhite (c : Char) : Bool := c.isWhitespace

/-- `str.strip()` on a character list: drop whitespace at both ends. -/
def trimChars (l : List Char) : List Char :=
  ((l.dropWhile isPyWhite).reverse.dropWhile isPyWhite).reverse

/-- Python `str.strip()`. -/
def pyStrip (s : String) : String := ⟨trimChars s.data⟩

/-- A hexadecimal character, as in the regex `[0-9a-fA-F]`. -/
def isHexChar (c : Char) : Bool :=
  c.isDigit || ('a' ≤ c && c ≤ 'f') || ('A' ≤ c && c ≤ 'F')

/-- `commit_hash.strip()` followed by `re.sub(r'[^0-9a-fA-F]', '', ...)`
(chatbot.py lines 364-367). -/
def sanitizeHash (s : String) : String :=
  ⟨(trimChars s.data).filter isHexChar⟩

/-- Python `s.split(sep)` for a one-character separator: keeps empty
pieces, `"" → [""]`. -/
def splitOnChar (sep : Char) : List Char → List (List Char)
  | [] => [[]]
  | c :: rest =>
    let r := splitOnChar sep rest
    if c = sep then [] :: r
    else
      match r with
      | [] => [[c]]
      | h :: t => (c :: h) :: t

/-- Python `s.split()` (no separator): split on whitespace runs,
dropping empty tokens.  `acc` holds the current token reversed. -/
def splitWsAux : List Char → List Char → List (List Char)
  | [], acc => if acc.isEmpty then [] else [acc.reverse]
  | c :: rest, acc =>
    if isPyWhite c then
      if acc.isEmpty then splitWsAux rest []
      else acc.reverse :: splitWsAux rest []
    else splitWsAux rest (c :: acc)

def splitWhitespaceTokens (l : List Char) : List (List Char) := splitWsAux l []

/-- Python `s.split(sep, 1)`: the part before the first `sep` and the
part after it (the caller guards that `sep` occurs). -/
def splitFirst (sep : Char) : List Char → List Char × List Char
  | [] => ([], [])
  | c :: rest =>
    if c = sep then ([], rest)
    else
      let p := splitFirst sep rest
      (c :: p.1, p.2)

/-- Python `needle in hay` on strings. -/
def containsSub : List Char → List Char → Bool
  | needle, [] => needle.isEmpty
  | needle, c :: rest => needle.isPrefixOf (c :: rest) || containsSub needle rest

/-- Digits of a decimal numeral, most significant first. -/
def digitsToNatAux : List Char → Nat → Option Nat
  | [], acc => some acc
  | c :: rest, acc =>
    if c.isDigit then digitsToNatAux rest (acc * 10 + (c.toNat - '0'.toNat)) else none

def digitsToNat : List Char → Option Nat
  | [] => none
  | l => digitsToNatAux l 0

/-- Python `int(str)` (the cases arising here: optional sign, decimal
digits, surrounding whitespace); `none` models the `ValueError`. -/
def pyInt? (l : List Char) : Option Int :=
  match trimChars l with
  | '-' :: rest => (digitsToNat rest).map (fun n => -(n : Int))
  | '+' :: rest => (digitsToNat rest).map (fun n => (n : Int))
  | l' => (digitsToNat l').map (fun n => (n : Int))

/-- Python truthiness of an optional string (`None` and `''` are falsy). -/
def optTruthy : Option String → Bool
  | some s => !(s == "")
  | none => false

/-! ## Records built by `RepoAnalyzer` -/

/-- One entry of a commit's `file_changes` list. -/
structure FileChange where
  path : String
  change_type : String
  insertions : Int
  deletions : Int
deriving DecidableEq

/-- The `stats` dictionary of a commit record; `note` is the optional
truncation note `"Display limited to N files"`. -/
structure CommitStats where
  files_changed : Int
  insertions : Int
  deletions : Int
  note : Option String
deriving DecidableEq

/-- The commit dictionary built by `_get_commit_history` and
`get_commit_by_hash`. -/
structure CommitInfo where
  hash : String
  short_hash : String
  author : String
  date : String
  message : String
  stats : CommitStats
  file_changes : List FileChange
deriving DecidableEq

/-- One GitPython `Diff` object, as consulted by the source: the three
change-kind flags and the two optional paths. -/
structure DiffEntry where
  new_file : Bool
  deleted_file : Bool
  renamed : Bool
  b_path : Option String
  a_path : Option String
deriving DecidableEq

/-- A commit as handed to `_get_commit_history` by `repo.iter_commits()`:
`parentDiffs` holds, per parent, the diff index `parent.diff(commit)`
(`none` when that call raised and was skipped); `tree` lists the paths
of the blobs tracked in the commit's tree.  `_get_commit_history` never
consults `tree`. -/
structure GCommit where
  hexsha : String
  authorName : String
  authorEmail : String
  dateIso : String
  message : String
  tree : List String
  parentDiffs : List (Option (List DiffEntry))
deriving DecidableEq

/-- Change-kind classification of a GitPython diff entry
(chatbot.py lines 304-310 and 518-524). -/
def changeTypeOf (d : DiffEntry) : String :=
  if d.new_file then "added"
  else if d.deleted_file then "deleted"
  else if d.renamed then "renamed"
  else "modified"

/-- Path selection for a diff entry: `b_path` if truthy, else `a_path`
if truthy, else the entry is skipped (lines 313-320). -/
def pickPath (d : DiffEntry) : Option String :=
  if optTruthy d.b_path then d.b_path
  else if optTruthy d.a_path then d.a_path
  else none

/-- The per-parent diff processing of `_get_commit_history`
(lines 302-331): classify each entry, skip entries without a path. -/
def diffIndexChanges (di : List DiffEntry) : List FileChange :=
  di.filterMap fun d =>
    (pickPath d).map fun p =>
      { path := p, change_type := changeTypeOf d, insertions := 0, deletions := 0 }

/-- `file_changes` of one commit in `_get_commit_history`
(lines 298-334): concatenation over *all* parents; a parent whose diff
raised contributes nothing. -/
def historyFileChanges (c : GCommit) : List FileChange :=
  (c.parentDiffs.map fun pd =>
    match pd with
    | some di => diffIndexChanges di
    | none => []).flatten

/-- The commit dictionary `_get_commit_history` builds for one commit
(lines 286-339). -/
def commitInfoOfHistory (c : GCommit) : CommitInfo :=
  let fcs := historyFileChanges c
  { hash := c.hexsha
    short_hash := ⟨c.hexsha.data.take 7⟩
    author := c.authorName ++ " <" ++ c.authorEmail ++ ">"
    date := c.dateIso
    message := pyStrip c.message
    stats := { files_changed := (fcs.length : Int), insertions := 0, deletions := 0, note := none }
    file_changes := fcs }

/-- `RepoAnalyzer._get_commit_history` (lines 279-352): the first
`max_commits` commits of `repo.iter_commits()`, each summarised; the
same list is appended to `self.commit_history`. -/
def get_commit_history (repoCommits : List GCommit) (max_commits : Nat) : List CommitInfo :=
  (repoCommits.take max_commits).map commitInfoOfHistory

/-! ## `get_commit_by_hash`: VCS oracle, exceptions, operation trace -/

/-- Python exceptions distinguished by the handlers of
`get_commit_by_hash`: `GitCommandError`, `ValueError`, anything else. -/
inductive PyExn where
  | valueError (msg : String)
  | gitCommandError (msg : String)
  | otherExn (msg : String)
deriving DecidableEq

/-- VCS subprocess/library operations available at the core's boundary
(spec section 6).  `fetchByHash` is the fetch-a-single-object primitive;
the embedding records every operation the code performs in a trace. -/
inductive VcsOp where
  | revParse (ref : String)
  | commitLookup (ref : String)
  | showStat (ref : String)
  | diffTree (parent commit : String)
  | parentDiff (parent commit : String)
  | lsTree (ref : String)
  | fetchByHash (remote ref : String)
deriving DecidableEq

/-- A commit object as returned by `repo.commit(...)`. -/
structure GitCommitObj where
  hexsha : String
  authorName : String
  authorEmail : String
  dateIso : String
  message : String
  parents : List String
deriving DecidableEq

/-- The Git repository oracle: each field models one fallible
VCS operation used by `get_commit_by_hash`. -/
structure GitRepo where
  revParse : String → Except PyExn String
  commitLookup : String → Except PyExn GitCommitObj
  showStat : String → Except PyExn String
  diffTree : String → String → Except PyExn String
  parentDiff : String → String → Except PyExn (List DiffEntry)
  lsTree : String → Except PyExn String

/-- `part.split()[0]` then `int(...)`, with `ValueError`/`IndexError`
swallowed (lines 432-445): `none` models "keep the previous value". -/
def parseCountToken (part : List Char) : Option Int :=
  match splitWhitespaceTokens part with
  | [] => none
  | tok :: _ => pyInt? tok

/-- The `for part in parts` loop of the stats parser (lines 429-445):
accumulate `(files_changed, insertions, deletions)`. -/
def statsFromParts (parts : List (List Char)) : Int × Int × Int :=
  parts.foldl
    (fun acc part =>
      let part := trimChars part
      if containsSub "file".data part then
        match parseCountToken part with
        | some n => (n, acc.2.1, acc.2.2)
        | none => acc
      else if containsSub "insertion".data part then
        match parseCountToken part with
        | some n => (acc.1, n, acc.2.2)
        | none => acc
      else if containsSub "deletion".data part then
        match parseCountToken part with
        | some n => (acc.1, acc.2.1, n)
        | none => acc
      else acc)
    (0, 0, 0)

/-- Parsing of `git show --stat --format=` output into summary stats
(lines 412-451): look at the last line; if it mentions "changed" and
"insertion"/"deletion", split it on commas and read the counts. -/
def parseShowStat (stats_summary : String) : CommitStats :=
  if stats_summary = "" then ⟨0, 0, 0, none⟩
  else
    let ls := splitOnChar '\n' (trimChars stats_summary.data)
    let last_line := ls.getLast?.getD []
    if containsSub "changed".data last_line &&
        (containsSub "insertion".data last_line || containsSub "deletion".data last_line) then
      let t := statsFromParts (splitOnChar ',' last_line)
      ⟨t.1, t.2.1, t.2.2, none⟩
    else ⟨0, 0, 0, none⟩

/-- Mapping of a `--name-status` status letter (line 487-494); note the
source compares for equality, so e.g. `"R100"` maps to `"modified"`. -/
def statusToChangeType (status : List Char) : String :=
  if status = ['A'] then "added"
  else if status = ['D'] then "deleted"
  else if status = ['R'] then "renamed"
  else "modified"

/-- The `git diff-tree --name-status` line loop (lines 475-504): skip
empty/tab-less lines without counting; stop at the `max_files` ceiling;
otherwise split at the first tab. -/
def procDiffTreeLines (max_files : Nat) : List (List Char) → Nat → List FileChange
  | [], _ => []
  | line :: rest, file_count =>
    if line.isEmpty || !(line.contains '\t') then procDiffTreeLines max_files rest file_count
    else if file_count ≥ max_files then []
    else
      let p := splitFirst '\t' line
      { path := ⟨p.2⟩, change_type := statusToChangeType (trimChars p.1),
        insertions := 0, deletions := 0 }
        :: procDiffTreeLines max_files rest (file_count + 1)

/-- The GitPython fallback diff loop (lines 511-544): ceiling check at
the top, entries without a usable path skipped without counting. -/
def procDiffIndexCapped (max_files : Nat) : List DiffEntry → Nat → List FileChange
  | [], _ => []
  | d :: rest, file_count =>
    if file_count ≥ max_files then []
    else
      match pickPath d with
      | none => procDiffIndexCapped max_files rest file_count
      | some p =>
        { path := p, change_type := changeTypeOf d, insertions := 0, deletions := 0 }
          :: procDiffIndexCapped max_files rest (file_count + 1)

/-- The `git ls-tree -r` loop for root commits (lines 553-572): skip
empty lines, stop at the ceiling, emit `"added"` for tab-ed lines. -/
def procLsTreeLines (max_files : Nat) : List (List Char) → Nat → List FileChange
  | [], _ => []
  | line :: rest, file_count =>
    if line.isEmpty then procLsTreeLines max_files rest file_count
    else if file_count ≥ max_files then []
    else if line.contains '\t' then
      { path := ⟨(splitFirst '\t' line).2⟩, change_type := "added",
        insertions := 0, deletions := 0 }
        :: procLsTreeLines max_files rest (file_count + 1)
    else procLsTreeLines max_files rest file_count

/-- The record construction once `repo.commit(...)` succeeded
(lines 401-584): summary stats (errors swallowed), then the capped
file-change list (diff-tree, falling back to GitPython diffs, or
ls-tree for a root commit), then the truncation note. -/
def buildCommitRecord (repo : GitRepo) (commit : GitCommitObj) (max_files : Nat) :
    CommitInfo × List VcsOp :=
  let stats0 :=
    match repo.showStat commit.hexsha with
    | Except.ok out => parseShowStat out
    | Except.error _ => ⟨0, 0, 0, none⟩
  let body :=
    match commit.parents with
    | parent :: _ =>
      (match repo.diffTree parent commit.hexsha with
       | Except.ok out =>
         (procDiffTreeLines max_files (splitOnChar '\n' (trimChars out.data)) 0,
          [VcsOp.diffTree parent commit.hexsha])
       | Except.error _ =>
         match repo.parentDiff parent commit.hexsha with
         | Except.ok di =>
           (procDiffIndexCapped max_files di 0,
            [VcsOp.diffTree parent commit.hexsha, VcsOp.parentDiff parent commit.hexsha])
         | Except.error _ =>
           ([], [VcsOp.diffTree parent commit.hexsha, VcsOp.parentDiff parent commit.hexsha]))
    | [] =>
      match repo.lsTree commit.hexsha with
      | Except.ok out =>
        (procLsTreeLines max_files (splitOnChar '\n' (trimChars out.data)) 0,
         [VcsOp.lsTree commit.hexsha])
      | Except.error _ => ([], [VcsOp.lsTree commit.hexsha])
  let fcs := body.1
  let stats :=
    if fcs.length = max_files ∧ stats0.files_changed > (max_files : Int) then
      { stats0 with
        files_changed := (max_files : Int)
        note := some ("Display limited to " ++ toString max_files ++ " files") }
    else stats0
  ({ hash := commit.hexsha
     short_hash := ⟨commit.hexsha.data.take 7⟩
     author := commit.authorName ++ " <" ++ commit.authorEmail ++ ">"
     date := commit.dateIso
     message := pyStrip commit.message
     stats := stats
     file_changes := fcs },
   VcsOp.showStat commit.hexsha :: body.2)

/-- The value `get_commit_by_hash` hands back: a commit record,
Python `None`, or the `{"status": "error", ...}` dictionary. -/
inductive ResolveResult where
  | record (c : CommitInfo)
  | notFound
  | errorStatus (message : String)
deriving DecidableEq

/-- The cached-history match of line 381: full-hash equality,
hash-prefix match, or short-hash equality. -/
def cacheMatches (h : String) (c : CommitInfo) : Bool :=
  h == c.hash || h.data.isPrefixOf c.hash.data || c.short_hash == h

/-- `repo.commit(commit_hash)` and its handlers (lines 398-601).  Both
branches of the `ValueError` handler end in `None`; a `GitCommandError`
mentioning "bad object" or "not in" yields the status dictionary
(message paraphrased here without the apostrophe of the source text;
no theorem depends on its wording). -/
def resolveCommitStep (repo : GitRepo) (commit_hash : String) (max_files : Nat) :
    Except PyExn ResolveResult × List VcsOp :=
  match repo.commitLookup commit_hash with
  | Except.ok commit =>
    let b := buildCommitRecord repo commit max_files
    (Except.ok (ResolveResult.record b.1), VcsOp.commitLookup commit_hash :: b.2)
  | Except.error (PyExn.valueError _) =>
    (Except.ok ResolveResult.notFound, [VcsOp.commitLookup commit_hash])
  | Except.error (PyExn.gitCommandError m) =>
    if containsSub "bad object".data m.data || containsSub "not in".data m.data then
      (Except.ok (ResolveResult.errorStatus
        ("Commit " ++ commit_hash ++
         " not found. This may be because it is older than the repository clone depth (1000 commits). Try using a more recent commit.")),
       [VcsOp.commitLookup commit_hash])
    else (Except.ok ResolveResult.notFound, [VcsOp.commitLookup commit_hash])
  | Except.error (PyExn.otherExn _) =>
    (Except.ok ResolveResult.notFound, [VcsOp.commitLookup commit_hash])

/-- The body of `get_commit_by_hash` inside the outer `try`
(lines 362-601): sanitize, scan the cached history, `git rev-parse`
(only `GitCommandError` is caught there — any other exception escapes
to the outer handler as `Except.error`), then the commit lookup. -/
def get_commit_by_hash_body (repo : GitRepo) (commit_history : List CommitInfo)
    (input : String) (max_files : Nat) : Except PyExn ResolveResult × List VcsOp :=
  let commit_hash := sanitizeHash input
  if commit_hash = "" then (Except.ok ResolveResult.notFound, [])
  else
    match commit_history.find? (cacheMatches commit_hash) with
    | some c => (Except.ok (ResolveResult.record c), [])
    | none =>
      match repo.revParse commit_hash with
      | Except.ok full_hash =>
        let commit_hash := if full_hash ≠ "" then full_hash else commit_hash
        let r := resolveCommitStep repo commit_hash max_files
        (r.1, VcsOp.revParse (sanitizeHash input) :: r.2)
      | Except.error (PyExn.gitCommandError _) =>
        let r := resolveCommitStep repo commit_hash max_files
        (r.1, VcsOp.revParse commit_hash :: r.2)
      | Except.error e => (Except.error e, [VcsOp.revParse commit_hash])

/-- `RepoAnalyzer.get_commit_by_hash` (lines 354-605): the body wrapped
in the outer `except Exception: return None` handler. -/
def get_commit_by_hash (repo : GitRepo) (commit_history : List CommitInfo)
    (input : String) (max_files : Nat) : Except PyExn ResolveResult × List VcsOp :=
  match get_commit_by_hash_body repo commit_history input max_files with
  | (Except.error _, ops) => (Except.ok ResolveResult.notFound, ops)
  | r => r

/-- Does an operation fetch from a remote? -/
def isFetchOp : VcsOp → Bool
  | VcsOp.fetchByHash _ _ => true
  | _ => false

/-! ## RelevanceRanker: Python `sorted(..., key=λx. x[1], reverse=True)`

CPython `sorted` is a stable sort; with `reverse=True` it orders by
descending key and keeps the original order of equal keys.  We model it
as insertion sort with the relation "my key is at least yours", which
has exactly that behaviour.  The numpy cosine similarity of two
embedding vectors is an external float computation; it enters only
through comparisons, so it is a parameter `cosineSim` into an arbitrary
linear order. -/

def descRel {α β : Type} [LinearOrder β] (f : α → β) : α → α → Prop :=
  fun a b => f b ≤ f a

instance {α β : Type} [LinearOrder β] (f : α → β) : DecidableRel (descRel f) :=
  fun a b => inferInstanceAs (Decidable (f b ≤ f a))

instance {α β : Type} [LinearOrder β] (f : α → β) : IsTotal α (descRel f) :=
  ⟨fun a b => le_total (f b) (f a)⟩

instance {α β : Type} [LinearOrder β] (f : α → β) : IsTrans α (descRel f) :=
  ⟨fun _ _ _ h1 h2 => le_trans h2 h1⟩

/-- Python `sorted(l, key=f, reverse=True)`: stable descending sort. -/
def pySortedDescBy {α β : Type} [LinearOrder β] (f : α → β) (l : List α) : List α :=
  List.insertionSort (descRel f) l

/-- Python dictionary assignment `d[k] = v` on an association list:
overwrite in place if the key exists, else append. -/
def dictInsert {α : Type} (k : String) (v : α) : List (String × α) → List (String × α)
  | [] => [(k, v)]
  | kv :: rest => if kv.1 = k then (k, v) :: rest else kv :: dictInsert k v rest

/-- `RepoAnalyzer.search_commit_history` (lines 853-880): embed every
cached commit message into a dictionary keyed by hash, score each
against the query, take the **top 5** (hardwired) by similarity, and
return the commits whose hash is among those five — by filtering
`self.commit_history`, i.e. in original history order. -/
def search_commit_history {V β : Type} [LinearOrder β]
    (encode : String → V) (cosineSim : V → V → β)
    (commit_history : List CommitInfo) (query : String) : List CommitInfo :=
  if commit_history.isEmpty then []
  else
    let query_embedding := encode query
    let commit_embeddings :=
      commit_history.foldl (fun d c => dictInsert c.hash (encode c.message) d) []
    let similarities :=
      commit_embeddings.map (fun he => (he.1, cosineSim query_embedding he.2))
    let sorted_commits := (pySortedDescBy (fun x => x.2) similarities).take 5
    commit_history.filter (fun c => (sorted_commits.map Prod.fst).contains c.hash)

/-- The result comprehension of `search_relevant_files` (lines 850-851):
pair each selected path with `self.file_contents[file_path]`; that
dictionary access raises `KeyError` when the path is absent, modelled
by the `none` outcome. -/
def lookupContentPairs {β : Type} (file_contents : List (String × String)) :
    List (String × β) → Option (List (String × String))
  | [] => some []
  | pv :: rest =>
    match file_contents.lookup pv.1 with
    | none => none
    | some content =>
      match lookupContentPairs file_contents rest with
      | none => none
      | some out => some ((pv.1, content) :: out)

/-- `RepoAnalyzer.search_relevant_files` (lines 830-851): empty result
on an empty embedding index; otherwise score every embedded file, sort
descending (stable), take `top_k`, and pair each path with
`self.file_contents[file_path]`.  That dictionary access raises
`KeyError` when the path is absent, modelled by the `none` result. -/
def search_relevant_files {V β : Type} [LinearOrder β]
    (encode : String → V) (cosineSim : V → V → β)
    (file_embeddings : List (String × V)) (file_contents : List (String × String))
    (query : String) (top_k : Nat) : Option (List (String × String)) :=
  if file_embeddings.isEmpty then some []
  else
    let query_embedding := encode query
    let similarities :=
      file_embeddings.map (fun pe => (pe.1, cosineSim query_embedding pe.2))
    let sorted_files := pySortedDescBy (fun x => x.2) similarities
    lookupContentPairs file_contents (sorted_files.take top_k)

/-- The similarity score `search_relevant_files` associates with an
embedded path (well defined because the embedding index is a dictionary
with unique keys); `d0` is returned for paths outside the index. -/
def fileSimOf {V β : Type} [LinearOrder β] (encode : String → V) (cosineSim : V → V → β)
    (file_embeddings : List (String × V)) (query : String) (d0 : β) (p : String) : β :=
  match file_embeddings.lookup p with
  | some e => cosineSim (encode query) e
  | none => d0

/-! ## RepositoryCrawler: `_get_file_structure` (lines 710-799)

The working tree is a finite tree of named files and directories
(mutually inductive so that all functions are structurally recursive).
Opening a file yields a `ReadResult`; `os.walk` with the in-place
pruning `dirs[:] = [d for d in dirs if not d.startswith('.')]` is the
recursive walk that never enters dot-directories. -/

/-- What `open(full_path, 'r', encoding='utf-8').read()` does for one
file: text content, one of the caught errors (`UnicodeDecodeError`,
`IsADirectoryError`, `PermissionError`, `OSError`), or the
`os.path.isfile` test fails. -/
inductive ReadResult where
  | content (s : String)
  | readFail
  | notAFile
deriving DecidableEq

mutual

inductive FTree : Type where
  | node (files : List (String × ReadResult)) (dirs : Dirs) : FTree

inductive Dirs : Type where
  | nil : Dirs
  | cons (name : String) (sub : FTree) (rest : Dirs) : Dirs

end

/-! The nested `file_structure` dictionary: a name maps to `None` for a
file or to a sub-dictionary for a directory. -/
mutual

inductive FS : Type where
  | node (entries : FSEntries) : FS

inductive FSEntries : Type where
  | nil : FSEntries
  | file (name : String) (rest : FSEntries) : FSEntries
  | dir (name : String) (sub : FS) (rest : FSEntries) : FSEntries

end

def appendFSEntries : FSEntries → FSEntries → FSEntries
  | FSEntries.nil, e => e
  | FSEntries.file n rest, e => FSEntries.file n (appendFSEntries rest e)
  | FSEntries.dir n sub rest, e => FSEntries.dir n sub (appendFSEntries rest e)

/-- Dictionary lookup in one `file_structure` level: `some none` is the
`None` leaf of a file, `some (some sub)` a subdirectory dictionary. -/
def fsLookupEntries : FSEntries → String → Option (Option FS)
  | FSEntries.nil, _ => none
  | FSEntries.file n rest, k => if n = k then some none else fsLookupEntries rest k
  | FSEntries.dir n sub rest, k => if n = k then some (some sub) else fsLookupEntries rest k

/-- Navigate `file_structure` along a non-empty component path. -/
def fsLookupPath : FS → List String → Option (Option FS)
  | _, [] => none
  | FS.node es, [n] => fsLookupEntries es n
  | FS.node es, n :: rest =>
    match fsLookupEntries es n with
    | some (some sub) => fsLookupPath sub rest
    | _ => none

/-- Is this lookup outcome the `None` leaf of a file? -/
def isFileLeaf : Option (Option FS) → Bool
  | some none => true
  | _ => false

/-- `name.startswith('.')`. -/
def startsDot (s : String) : Bool :=
  match s.data with
  | [] => false
  | c :: _ => c == '.'

/-- `os.path.join(rel_path, file)`; at the walk root the source uses the
bare file name. -/
def joinPre (pre : String) (name : String) : String :=
  if pre = "" then name else pre ++ "/" ++ name

/-- The `binary_extensions` set (lines 716-725). -/
def binaryExtensions : List String :=
  [".jpg", ".jpeg", ".png", ".gif", ".ico", ".bmp", ".tiff", ".webp",
   ".pdf", ".doc", ".docx", ".xls", ".xlsx", ".ppt", ".pptx",
   ".zip", ".tar", ".gz", ".rar", ".7z",
   ".exe", ".dll", ".so", ".dylib", ".bin",
   ".mp3", ".mp4", ".wav", ".avi", ".mov", ".flv",
   ".pyc", ".pyo", ".pyd",
   ".jar", ".class",
   ".o", ".a", ".lib"]

/-- The extension part of `os.path.splitext(file)`: from the last dot
(inclusive) to the end, `""` when there is no dot.  (The crawler only
applies this to names that do not start with a dot, so the
leading-dot special case of `splitext` cannot arise.) -/
def extOf (name : String) : String :=
  let rev := name.data.reverse
  match rev.dropWhile (fun c => !(c == '.')) with
  | [] => ""
  | _ :: _ => ⟨'.' :: (rev.takeWhile (fun c => !(c == '.'))).reverse⟩

def toLowerStr (s : String) : String := ⟨s.data.map Char.toLower⟩

/-- `ext.lower() in binary_extensions`. -/
def isBinaryName (name : String) : Bool :=
  binaryExtensions.contains (toLowerStr (extOf name))

/-- The sentinel stored for binary/unreadable files. -/
def binaryMarker : String := "[Binary content]"

/-- Python slicing `content[:n]`. -/
def strTakeChars (n : Nat) (s : String) : String := ⟨s.data.take n⟩

/-- The per-file body of the walk loop (lines 737-761 for the root
level, 773-797 for nested levels — the two are identical up to the path
prefix): skip dot-files; binary extensions get the marker and a `None`
structure leaf without an `isfile` check; otherwise only actual files
are read, a successful read also records an embedding of the first
5000 characters, and a caught read error degrades to the marker. -/
def crawlFiles {V : Type} (encode : String → V) (pre : String) :
    List (String × ReadResult) →
      List (String × String) × List (String × V) × FSEntries
  | [] => ([], [], FSEntries.nil)
  | (name, rr) :: rest =>
    let r := crawlFiles encode pre rest
    if startsDot name then r
    else
      let file_path := joinPre pre name
      if isBinaryName name then
        ((file_path, binaryMarker) :: r.1, r.2.1, FSEntries.file name r.2.2)
      else
        match rr with
        | ReadResult.notAFile => r
        | ReadResult.content s =>
          ((file_path, s) :: r.1,
           (file_path, encode (strTakeChars 5000 s)) :: r.2.1,
           FSEntries.file name r.2.2)
        | ReadResult.readFail =>
          ((file_path, binaryMarker) :: r.1, r.2.1, FSEntries.file name r.2.2)

mutual

/-- The walk over one directory: its files, then its (non-dot)
subdirectories.  Returns the accumulated `file_contents` and
`file_embeddings` entries and the `file_structure` entries of this
level. -/
def crawlTree {V : Type} (encode : String → V) (pre : String) :
    FTree → List (String × String) × List (String × V) × FSEntries
  | FTree.node files dirs =>
    let rf := crawlFiles encode pre files
    let rd := crawlDirs encode pre dirs
    (rf.1 ++ rd.1, rf.2.1 ++ rd.2.1, appendFSEntries rf.2.2 rd.2.2)

/-- Walk the subdirectory list; a dot-directory is pruned from the walk
entirely, so nothing under it is ever visited. -/
def crawlDirs {V : Type} (encode : String → V) (pre : String) :
    Dirs → List (String × String) × List (String × V) × FSEntries
  | Dirs.nil => ([], [], FSEntries.nil)
  | Dirs.cons name sub rest =>
    let rr := crawlDirs encode pre rest
    if startsDot name then rr
    else
      let rs := crawlTree encode (joinPre pre name) sub
      (rs.1 ++ rr.1, rs.2.1 ++ rr.2.1,
       FSEntries.dir name (FS.node rs.2.2) rr.2.2)

end

/-- `RepoAnalyzer._get_file_structure`: crawl from the working-tree
root; returns `(file_contents, file_embeddings, file_structure)`. -/
def get_file_structure {V : Type} (encode : String → V) (t : FTree) :
    List (String × String) × List (String × V) × FS :=
  let r := crawlTree encode "" t
  (r.1, r.2.1, FS.node r.2.2)

/-! Specification-side collectors used to state the crawler claims. -/

mutual

/-- All files the walk encounters, with their directory component path
(relative to the tree node), excluding dot-files and everything inside
dot-directories — exactly the files the loop body runs on. -/
def reachableT : FTree → List (List String × String × ReadResult)
  | FTree.node files dirs =>
    (files.filterMap fun f =>
      if startsDot f.1 then none else some ([], f.1, f.2)) ++ reachableD dirs

def reachableD : Dirs → List (List String × String × ReadResult)
  | Dirs.nil => []
  | Dirs.cons name sub rest =>
    (if startsDot name then []
     else (reachableT sub).map fun e => (name :: e.1, e.2.1, e.2.2)) ++ reachableD rest

end

/-- Does the loop body create `file_contents`/`file_structure` entries
for this file?  (Binary extensions always do; otherwise only an actual
file does.) -/
def emitsEntry (name : String) (rr : ReadResult) : Bool :=
  isBinaryName name ||
    (match rr with
     | ReadResult.notAFile => false
     | _ => true)

/-- The `file_contents` value the loop body stores for this file. -/
def contentValue (name : String) (rr : ReadResult) : String :=
  if isBinaryName name then binaryMarker
  else
    match rr with
    | ReadResult.content s => s
    | _ => binaryMarker

/-- Full path of a file from its directory components. -/
def pathOfComponents (pre : String) (ds : List String) (name : String) : String :=
  joinPre (ds.foldl joinPre pre) name

def dirNames : Dirs → List String
  | Dirs.nil => []
  | Dirs.cons name _ rest => name :: dirNames rest

/-! Well-formedness of a working tree: within every directory the file
and subdirectory names are pairwise distinct (true of any real file
system). -/
mutual

def wfTree : FTree → Bool
  | FTree.node files dirs =>
    decide ((files.map Prod.fst ++ dirNames dirs).Nodup) && wfDirs dirs

def wfDirs : Dirs → Bool
  | Dirs.nil => true
  | Dirs.cons _ sub rest => wfTree sub && wfDirs rest

end

/-! All entry names of a `file_structure`, at every level, avoid a
leading dot. -/
mutual

def fsCleanF : FS → Bool
  | FS.node es => fsCleanE es

def fsCleanE : FSEntries → Bool
  | FSEntries.nil => true
  | FSEntries.file n rest => !startsDot n && fsCleanE rest
  | FSEntries.dir n sub rest => !startsDot n && fsCleanF sub && fsCleanE rest

end

/-- The important-file regex `\.github/workflows/.*\.yml$` of
`_identify_important_files` (line 818), applied with `re.match` (i.e.
anchored at the start).  This Boolean over-approximates the regex (the
regex additionally forbids newlines in the `.*` part), so proving it
`false` proves the regex cannot match. -/
def githubWorkflowMatch (p : String) : Bool :=
  ".github/workflows/".data.isPrefixOf p.data && ".yml".data.isSuffixOf p.data

/-! ## Helper lemmas about the resolver's trace and totality -/

theorem buildCommitRecord_no_fetch (repo : GitRepo) (commit : GitCommitObj) (maxf : Nat) :
    ∀ op ∈ (buildCommitRecord repo commit maxf).2, isFetchOp op = false := by
  intro op hop
  unfold buildCommitRecord at hop
  rcases hp : commit.parents with _ | ⟨parent, rest⟩ <;> simp only [hp] at hop
  · rcases hl : repo.lsTree commit.hexsha with m | out <;> simp only [hl] at hop <;>
      simp only [List.mem_cons, List.mem_singleton, List.not_mem_nil, or_false] at hop <;>
      rcases hop with rfl | rfl <;> rfl
  · rcases hd : repo.diffTree parent commit.hexsha with m | out <;> simp only [hd] at hop
    · rcases hd2 : repo.parentDiff parent commit.hexsha with m2 | di <;>
        simp only [hd2] at hop <;>
        simp only [List.mem_cons, List.mem_singleton, List.not_mem_nil, or_false] at hop <;>
        rcases hop with rfl | rfl | rfl <;> rfl
    · simp only [List.mem_cons, List.mem_singleton, List.not_mem_nil, or_false] at hop
      rcases hop with rfl | rfl <;> rfl

theorem resolveCommitStep_no_fetch (repo : GitRepo) (h : String) (maxf : Nat) :
    ∀ op ∈ (resolveCommitStep repo h maxf).2, isFetchOp op = false := by
  intro op hop
  unfold resolveCommitStep at hop
  rcases hc : repo.commitLookup h with e | commit
  · rcases e with m | m | m <;> simp only [hc] at hop
    · simp only [List.mem_singleton] at hop; subst hop; rfl
    · split at hop <;> simp only [List.mem_singleton] at hop <;> subst hop <;> rfl
    · simp only [List.mem_singleton] at hop; subst hop; rfl
  · simp only [hc, List.mem_cons] at hop
    rcases hop with rfl | hop
    · rfl
    · exact buildCommitRecord_no_fetch repo commit maxf op hop

theorem get_commit_by_hash_no_fetch (repo : GitRepo) (commit_history : List CommitInfo)
    (input : String) (max_files : Nat) :
    ∀ op ∈ (get_commit_by_hash repo commit_history input max_files).2,
      isFetchOp op = false := by
  intro op hop
  have hbody : ∀ o ∈ (get_commit_by_hash_body repo commit_history input max_files).2,
      isFetchOp o = false := by
    intro o ho
    unfold get_commit_by_hash_body at ho
    by_cases hs : sanitizeHash input = ""
    · simp only [hs, if_pos rfl] at ho
      simp at ho
    · simp only [if_neg hs] at ho
      rcases hf : (commit_history.find? (cacheMatches (sanitizeHash input))) with _ | c <;>
        simp only [hf] at ho
      · rcases hr : repo.revParse (sanitizeHash input) with e | full
        · rcases e with m | m | m <;> simp only [hr] at ho
          · simp only [List.mem_singleton] at ho; subst ho; rfl
          · simp only [List.mem_cons] at ho
            rcases ho with rfl | ho
            · rfl
            · exact resolveCommitStep_no_fetch repo _ max_files o ho
          · simp only [List.mem_singleton] at ho; subst ho; rfl
        · simp only [hr, List.mem_cons] at ho
          rcases ho with rfl | ho
          · rfl
          · exact resolveCommitStep_no_fetch repo _ max_files o ho
      · simp at ho
  have htr : (get_commit_by_hash repo commit_history input max_files).2 =
      (get_commit_by_hash_body repo commit_history input max_files).2 := by
    unfold get_commit_by_hash
    rcases hb : get_commit_by_hash_body repo commit_history input max_files with ⟨e | r, ops⟩ <;>
      simp only [hb]
  rw [htr] at hop
  exact hbody op hop

theorem get_commit_by_hash_total (repo : GitRepo) (commit_history : List CommitInfo)
    (input : String) (max_files : Nat) :
    ∃ r : ResolveResult,
      (get_commit_by_hash repo commit_history input max_files).1 = Except.ok r := by
  unfold get_commit_by_hash
  rcases hb : get_commit_by_hash_body repo commit_history input max_files with ⟨e | r, ops⟩
  · exact ⟨ResolveResult.notFound, by simp only [hb]⟩
  · exact ⟨r, by simp only [hb]⟩

instance {E A : Type} [DecidableEq E] [DecidableEq A] : DecidableEq (Except E A) := fun x y =>
  match x, y with
  | Except.ok a, Except.ok b =>
    if h : a = b then isTrue (by rw [h]) else isFalse (by simp [h])
  | Except.error a, Except.error b =>
    if h : a = b then isTrue (by rw [h]) else isFalse (by simp [h])
  | Except.ok _, Except.error _ => isFalse (by simp)
  | Except.error _, Except.ok _ => isFalse (by simp)

/-! ## Concrete fixtures -/

/-- A root commit (zero parents) whose tree tracks two files. -/
def rootCommitExample : GCommit :=
  { hexsha := "a0b1c2d3e4f50617283940a5b6c7d8e9f0123456"
    authorName := "Alice"
    authorEmail := "alice@example.com"
    dateIso := "2024-01-01T00:00:00"
    message := "initial commit"
    tree := ["README.md", "src/main.py"]
    parentDiffs := [] }

/-- An oracle for a repository in which every VCS operation fails with
a `GitCommandError` and commit lookup reports a missing object. -/
def failingRepo : GitRepo :=
  { revParse := fun _ => Except.error (PyExn.gitCommandError "unknown revision")
    commitLookup := fun h => Except.error (PyExn.gitCommandError ("bad object " ++ h))
    showStat := fun _ => Except.error (PyExn.gitCommandError "failed")
    diffTree := fun _ _ => Except.error (PyExn.gitCommandError "failed")
    parentDiff := fun _ _ => Except.error (PyExn.gitCommandError "failed")
    lsTree := fun _ => Except.error (PyExn.gitCommandError "failed") }

/-! ## C1 -/

/-- C1 counterexample: for the zero-parent root commit
`rootCommitExample`, whose tree tracks `README.md`, the commit-history
indexer `_get_commit_history` emits an **empty** `file_changes` list —
it does not list the commit's tree, so the tracked file is not reported
as "added", contradicting the claim that every tracked file is emitted
as an added `FileChange`. -/
theorem C1_counterexample :
    rootCommitExample.parentDiffs = [] ∧
    "README.md" ∈ rootCommitExample.tree ∧
    (get_commit_history [rootCommitExample] 50).map (fun ci => ci.file_changes) = [[]] ∧
    ¬ ∃ ci ∈ get_commit_history [rootCommitExample] 50,
        ∃ fc ∈ ci.file_changes, fc.path = "README.md" ∧ fc.change_type = "added" := by
  refine ⟨rfl, by decide, by decide, ?_⟩
  decide

/-- C1 (amended): for every commit with zero parents that
`_get_commit_history` indexes, the emitted record carries an **empty**
file-change list: no "added", "modified" or "deleted" entries at all
(the full-tree "added" listing happens only in `get_commit_by_hash`). -/
theorem C1_root_commit_empty_changes (repoCommits : List GCommit) (max_commits : Nat)
    (c : GCommit) (hmem : c ∈ repoCommits.take max_commits)
    (hroot : c.parentDiffs = []) :
    ∃ ci ∈ get_commit_history repoCommits max_commits,
      ci.hash = c.hexsha ∧ ci.file_changes = [] := by
  refine ⟨commitInfoOfHistory c, List.mem_map_of_mem _ hmem, rfl, ?_⟩
  simp [commitInfoOfHistory, historyFileChanges, hroot]

/-- Witness for `C1_root_commit_empty_changes` at `rootCommitExample`. -/
theorem C1_root_commit_empty_changes_witness :
    rootCommitExample ∈ [rootCommitExample].take 50 ∧
    rootCommitExample.parentDiffs = [] ∧
    ∃ ci ∈ get_commit_history [rootCommitExample] 50,
      ci.hash = rootCommitExample.hexsha ∧ ci.file_changes = [] :=
  ⟨by decide, rfl,
    C1_root_commit_empty_changes [rootCommitExample] 50 rootCommitExample (by decide) rfl⟩

/-! ## C2 -/

/-- C2 counterexample: with an empty cached history and a repository
oracle in which both `rev-parse` and the commit lookup fail (the
shallow-clone situation the claim describes), resolving `"abc1234"`
performs exactly a rev-parse and a commit lookup — no fetch of any kind
— and returns the error-status dictionary.  The claimed "single
targeted fetch ... then retry" never happens. -/
theorem C2_counterexample :
    (get_commit_by_hash failingRepo [] "abc1234" 200).2 =
      [VcsOp.revParse "abc1234", VcsOp.commitLookup "abc1234"] ∧
    (∀ op ∈ (get_commit_by_hash failingRepo [] "abc1234" 200).2, isFetchOp op = false) ∧
    (get_commit_by_hash failingRepo [] "abc1234" 200).1 =
      Except.ok (ResolveResult.errorStatus
        ("Commit abc1234 not found. This may be because it is older than the repository clone depth (1000 commits). Try using a more recent commit.")) := by
  refine ⟨by decide, ?_, by decide⟩
  decide

/-- C2 (amended): `get_commit_by_hash` never fetches from a remote —
its VCS trace contains no fetch operation for any input and any oracle
behaviour; when the reference is unknown locally it goes straight to
the commit lookup and returns a structured result. -/
theorem C2_never_fetches (repo : GitRepo) (commit_history : List CommitInfo)
    (input : String) (max_files : Nat) :
    (∀ op ∈ (get_commit_by_hash repo commit_history input max_files).2,
        isFetchOp op = false) ∧
    ∃ r : ResolveResult,
      (get_commit_by_hash repo commit_history input max_files).1 = Except.ok r :=
  ⟨get_commit_by_hash_no_fetch repo commit_history input max_files,
   get_commit_by_hash_total repo commit_history input max_files⟩

/-! ## C7 -/

/-- C7: for every input string (malformed, non-hex, unresolvable) and
every behaviour of the VCS oracle, `get_commit_by_hash` hands back a
structured value — a commit record, `None`, or the error-status
dictionary — and never lets an exception escape (the result is always
`Except.ok`). -/
theorem C7_structured_result (repo : GitRepo) (commit_history : List CommitInfo)
    (input : String) (max_files : Nat) :
    ∃ r : ResolveResult,
      (get_commit_by_hash repo commit_history input max_files).1 = Except.ok r :=
  get_commit_by_hash_total repo commit_history input max_files

/-! ## C5: short-hash round-trip through the cached history -/

theorem hex_not_white (c : Char) (h : isHexChar c = true) : isPyWhite c = false := by
  cases hx : isPyWhite c
  · rfl
  · exfalso
    have hw : isPyWhite c = true := hx
    simp only [isPyWhite, Char.isWhitespace, Bool.or_eq_true, decide_eq_true_eq] at hw
    rcases hw with ((h1 | h1) | h1) | h1 <;> rw [h1] at h <;> simp [isHexChar] at h

theorem dropWhile_white_of_hex (l : List Char) (h : ∀ c ∈ l, isHexChar c = true) :
    l.dropWhile isPyWhite = l := by
  cases l with
  | nil => rfl
  | cons c rest =>
    have hc := hex_not_white c (h c (List.mem_cons_self c rest))
    simp [List.dropWhile_cons, hc]

theorem trimChars_of_hex (l : List Char) (h : ∀ c ∈ l, isHexChar c = true) :
    trimChars l = l := by
  unfold trimChars
  rw [dropWhile_white_of_hex l h]
  rw [dropWhile_white_of_hex l.reverse (fun c hc => h c (List.mem_reverse.mp hc))]
  exact List.reverse_reverse l

/-- Sanitization leaves an all-hexadecimal string untouched. -/
theorem sanitizeHash_of_hex (s : String) (h : s.data.all isHexChar = true) :
    sanitizeHash s = s := by
  have h' : ∀ c ∈ s.data, isHexChar c = true := by
    intro c hc
    exact List.all_eq_true.mp h c hc
  unfold sanitizeHash
  rw [trimChars_of_hex s.data h', List.filter_eq_self.mpr h']

/-- C5 (amended): resolving the `short_hash` of an indexed commit is
served from the cached history with an **empty VCS trace** (no
subprocess call), and — provided no *other* cached record also matches
that 7-character prefix — the returned record's full hash equals the
original's.  The linear scan returns the first match, so without that
proviso a colliding earlier record is returned instead (see the
counterexample). -/
theorem C5_short_hash_roundtrip (repo : GitRepo) (gcommits : List GCommit)
    (maxc maxf : Nat) (c : CommitInfo)
    (hc : c ∈ get_commit_history gcommits maxc)
    (hhex : c.short_hash.data.all isHexChar = true)
    (hne : c.short_hash ≠ "")
    (huniq : ∀ r ∈ get_commit_history gcommits maxc,
        cacheMatches c.short_hash r = true → r.hash = c.hash) :
    ∃ r, get_commit_by_hash repo (get_commit_history gcommits maxc) c.short_hash maxf
          = (Except.ok (ResolveResult.record r), []) ∧ r.hash = c.hash := by
  have hsan : sanitizeHash c.short_hash = c.short_hash := sanitizeHash_of_hex _ hhex
  have hpc : cacheMatches c.short_hash c = true := by
    simp [cacheMatches]
  have hfind : ((get_commit_history gcommits maxc).find?
      (cacheMatches c.short_hash)).isSome := by
    rw [List.find?_isSome]
    exact ⟨c, hc, hpc⟩
  obtain ⟨r, hr⟩ := Option.isSome_iff_exists.mp hfind
  refine ⟨r, ?_, huniq r (List.mem_of_find?_eq_some hr) (List.find?_some hr)⟩
  unfold get_commit_by_hash get_commit_by_hash_body
  simp only [hsan, if_neg hne, hr]

/-- Two distinct 40-character hashes sharing their 7-character prefix. -/
def gcPrefixA : GCommit :=
  { hexsha := "aaaaaaa000000000000000000000000000000000"
    authorName := "Alice"
    authorEmail := "alice@example.com"
    dateIso := "2024-01-02T00:00:00"
    message := "first"
    tree := []
    parentDiffs := [] }

def gcPrefixB : GCommit :=
  { hexsha := "aaaaaaa111111111111111111111111111111111"
    authorName := "Bob"
    authorEmail := "bob@example.com"
    dateIso := "2024-01-03T00:00:00"
    message := "second"
    tree := []
    parentDiffs := [] }

/-- C5 counterexample: `gcPrefixB`'s record is in the cached history and
its `short_hash` is `"aaaaaaa"`, but resolving `"aaaaaaa"` returns the
*earlier* record `gcPrefixA` (same 7-character prefix, different full
hash): the round-trip identity fails as universally stated.  The trace
is empty, so the cache-only part of the claim does hold. -/
theorem C5_counterexample :
    (commitInfoOfHistory gcPrefixB).short_hash = "aaaaaaa" ∧
    commitInfoOfHistory gcPrefixB ∈ get_commit_history [gcPrefixA, gcPrefixB] 50 ∧
    get_commit_by_hash failingRepo (get_commit_history [gcPrefixA, gcPrefixB] 50)
        (commitInfoOfHistory gcPrefixB).short_hash 200
      = (Except.ok (ResolveResult.record (commitInfoOfHistory gcPrefixA)), []) ∧
    (commitInfoOfHistory gcPrefixA).hash ≠ (commitInfoOfHistory gcPrefixB).hash := by
  refine ⟨by decide, by decide, by decide, by decide⟩

/-- Witness for `C5_short_hash_roundtrip` on a one-commit history. -/
theorem C5_short_hash_roundtrip_witness :
    commitInfoOfHistory gcPrefixA ∈ get_commit_history [gcPrefixA] 50 ∧
    ∃ r, get_commit_by_hash failingRepo (get_commit_history [gcPrefixA] 50)
          (commitInfoOfHistory gcPrefixA).short_hash 200
        = (Except.ok (ResolveResult.record r), []) ∧
        r.hash = (commitInfoOfHistory gcPrefixA).hash :=
  ⟨by decide,
   C5_short_hash_roundtrip failingRepo [gcPrefixA] 50 200 (commitInfoOfHistory gcPrefixA)
     (by decide) (by decide) (by decide) (by decide)⟩

/-! ## C4: the `max_files` ceiling and the truncation note -/

/-- A `diff-tree --name-status` output line the loop actually processes
(the negation of its skip condition): non-empty and containing a tab. -/
def eligibleDiffLine (line : List Char) : Bool :=
  !(line.isEmpty || !(line.contains '\t'))

theorem procDiffTreeLines_length (maxf : Nat) (lines : List (List Char)) (k : Nat)
    (hk : k ≤ maxf) :
    (procDiffTreeLines maxf lines k).length =
      min ((lines.filter eligibleDiffLine).length) (maxf - k) := by
  induction lines generalizing k with
  | nil => simp [procDiffTreeLines]
  | cons line rest ih =>
    cases hq : (line.isEmpty || !(line.contains '\t')) with
    | true =>
      have hel : eligibleDiffLine line = false := by
        unfold eligibleDiffLine; rw [hq]; rfl
      simp only [procDiffTreeLines, hq, if_true, List.filter_cons, hel]
      simp only [Bool.false_eq_true, if_false]
      exact ih k hk
    | false =>
      have hel : eligibleDiffLine line = true := by
        unfold eligibleDiffLine; rw [hq]; rfl
      by_cases hub : k ≥ maxf
      · have hkm : k = maxf := le_antisymm hk hub
        subst hkm
        simp only [procDiffTreeLines, hq, Bool.false_eq_true, if_false, if_pos hub]
        simp
      · simp only [procDiffTreeLines, hq, Bool.false_eq_true, if_false, if_neg hub,
          List.filter_cons, hel, if_true, List.length_cons]
        rw [ih (k + 1) (by omega)]
        rw [show maxf - k = (maxf - (k + 1)) + 1 by omega, Nat.succ_min_succ]

/-- C4: resolving a commit whose `diff-tree` output has more eligible
lines than `max_files` — with the `git show --stat` summary reporting
that same (true) changed-file count — produces a record with **exactly**
`max_files` FileChange entries (never `max_files + 1`), stats clipped to
`max_files`, and the truncation note set. -/
theorem C4_truncation (repo : GitRepo) (commit_history : List CommitInfo) (input : String)
    (max_files : Nat) (commit : GitCommitObj) (parent : String) (prest : List String)
    (diffOut statsOut : String)
    (hne : sanitizeHash input ≠ "")
    (hmiss : commit_history.find? (cacheMatches (sanitizeHash input)) = none)
    (hrv : repo.revParse (sanitizeHash input) = Except.ok (sanitizeHash input))
    (hlk : repo.commitLookup (sanitizeHash input) = Except.ok commit)
    (hst : repo.showStat commit.hexsha = Except.ok statsOut)
    (hpar : commit.parents = parent :: prest)
    (hdt : repo.diffTree parent commit.hexsha = Except.ok diffOut)
    (hcount : (parseShowStat statsOut).files_changed =
      (((splitOnChar '\n' (trimChars diffOut.data)).filter eligibleDiffLine).length : Int))
    (hover : max_files <
      ((splitOnChar '\n' (trimChars diffOut.data)).filter eligibleDiffLine).length) :
    ∃ r, (get_commit_by_hash repo commit_history input max_files).1
          = Except.ok (ResolveResult.record r) ∧
      r.file_changes.length = max_files ∧
      r.stats.files_changed = (max_files : Int) ∧
      r.stats.note ≠ none := by
  have hlen : (procDiffTreeLines max_files
      (splitOnChar '\n' (trimChars diffOut.data)) 0).length = max_files := by
    rw [procDiffTreeLines_length max_files _ 0 (Nat.zero_le _), Nat.sub_zero]
    exact min_eq_right (le_of_lt hover)
  have hgt : (parseShowStat statsOut).files_changed > (max_files : Int) := by
    rw [hcount]
    exact_mod_cast hover
  have hrec : (buildCommitRecord repo commit max_files).1.file_changes.length = max_files ∧
      (buildCommitRecord repo commit max_files).1.stats.files_changed = (max_files : Int) ∧
      (buildCommitRecord repo commit max_files).1.stats.note ≠ none := by
    unfold buildCommitRecord
    simp only [hst, hpar, hdt]
    simp only [if_pos (And.intro hlen hgt)]
    refine ⟨?_, ?_, ?_⟩
    · exact hlen
    · trivial
    · simp
  refine ⟨(buildCommitRecord repo commit max_files).1, ?_, hrec.1, hrec.2.1, hrec.2.2⟩
  unfold get_commit_by_hash get_commit_by_hash_body resolveCommitStep
  simp only [if_neg hne, hmiss, hrv, if_pos hne, hlk]

/-- A commit with one parent, used to exercise the truncation path. -/
def overflowCommit : GitCommitObj :=
  { hexsha := "abc1234def5678901234567890123456789012ab"
    authorName := "Alice"
    authorEmail := "alice@example.com"
    dateIso := "2024-02-01T00:00:00"
    message := "touch four files"
    parents := ["p0" ] }

/-- Oracle for a repository whose `diff-tree` reports four changed
files and whose `show --stat` summary reports the same count. -/
def overflowRepo : GitRepo :=
  { revParse := fun h => Except.ok h
    commitLookup := fun _ => Except.ok overflowCommit
    showStat := fun _ => Except.ok " 4 files changed, 2 insertions(+), 1 deletion(-)"
    diffTree := fun _ _ => Except.ok "M\tf1\nM\tf2\nA\tf3\nD\tf4"
    parentDiff := fun _ _ => Except.error (PyExn.gitCommandError "unused")
    lsTree := fun _ => Except.error (PyExn.gitCommandError "unused") }

/-- Witness for `C4_truncation`: a 4-file commit against a ceiling of 3
returns exactly 3 entries, clipped stats, and the truncation note. -/
theorem C4_truncation_witness :
    3 < ((splitOnChar '\n'
        (trimChars ("M\tf1\nM\tf2\nA\tf3\nD\tf4" : String).data)).filter
          eligibleDiffLine).length ∧
    ∃ r, (get_commit_by_hash overflowRepo [] "abc1234" 3).1
          = Except.ok (ResolveResult.record r) ∧
      r.file_changes.length = 3 ∧
      r.stats.files_changed = (3 : Int) ∧
      r.stats.note ≠ none :=
  ⟨by decide,
   C4_truncation overflowRepo [] "abc1234" 3 overflowCommit "p0" []
     "M\tf1\nM\tf2\nA\tf3\nD\tf4" " 4 files changed, 2 insertions(+), 1 deletion(-)"
     (by decide) rfl rfl rfl rfl rfl rfl (by decide) (by decide)⟩

/-! ## Stable-sort lemmas for the ranker -/

theorem orderedInsert_filter_val {α β : Type} [LinearOrder β] (f : α → β) (x : α)
    (l : List α) (hs : l.Pairwise (descRel f)) (v : β) :
    (List.orderedInsert (descRel f) x l).filter (fun a => decide (f a = v)) =
      if f x = v then x :: l.filter (fun a => decide (f a = v))
      else l.filter (fun a => decide (f a = v)) := by
  induction l with
  | nil =>
    simp only [List.orderedInsert, List.filter]
    by_cases hv : f x = v <;> simp [hv]
  | cons y ys ih =>
    by_cases hxy : descRel f x y
    · simp only [List.orderedInsert, if_pos hxy]
      by_cases hv : f x = v <;> simp [List.filter_cons, hv]
    · have hlt : f x < f y := not_le.mp hxy
      have hys : ys.Pairwise (descRel f) := List.Pairwise.of_cons hs
      simp only [List.orderedInsert, if_neg hxy]
      rw [List.filter_cons, List.filter_cons, ih hys]
      by_cases hyv : f y = v
      · have hxv : f x ≠ v := by rw [← hyv]; exact ne_of_lt hlt
        simp [hyv, hxv]
      · by_cases hxv : f x = v <;> simp [hyv, hxv]

theorem pySortedDescBy_filter_val {α β : Type} [LinearOrder β] (f : α → β)
    (l : List α) (v : β) :
    (pySortedDescBy f l).filter (fun a => decide (f a = v)) =
      l.filter (fun a => decide (f a = v)) := by
  induction l with
  | nil => rfl
  | cons x xs ih =>
    unfold pySortedDescBy at ih ⊢
    simp only [List.insertionSort]
    rw [orderedInsert_filter_val f x _ (List.sorted_insertionSort _ xs) v]
    rw [ih, List.filter_cons]
    by_cases hv : f x = v <;> simp [hv]

theorem pySortedDescBy_take_ge {α β : Type} [LinearOrder β] (f : α → β) (l : List α)
    (k : Nat) :
    ∀ a ∈ (pySortedDescBy f l).take k, ∀ b ∈ (pySortedDescBy f l).drop k, f b ≤ f a := by
  have hp : (pySortedDescBy f l).Pairwise (descRel f) := List.sorted_insertionSort _ l
  rw [← List.take_append_drop k (pySortedDescBy f l)] at hp
  exact fun a ha b hb => (List.pairwise_append.mp hp).2.2 a ha b hb

theorem pySortedDescBy_perm {α β : Type} [LinearOrder β] (f : α → β) (l : List α) :
    List.Perm (pySortedDescBy f l) l := List.perm_insertionSort _ l

theorem pySortedDescBy_pairwise {α β : Type} [LinearOrder β] (f : α → β) (l : List α) :
    (pySortedDescBy f l).Pairwise (descRel f) :=
  List.sorted_insertionSort _ l

/-! ## Association-list (Python dict) lemmas -/

theorem lookup_eq_some_of_mem_nodup {α : Type} (l : List (String × α)) (k : String) (v : α)
    (hnd : (l.map Prod.fst).Nodup) (h : (k, v) ∈ l) : l.lookup k = some v := by
  induction l with
  | nil => simp at h
  | cons hd tl ih =>
    simp only [List.map_cons, List.nodup_cons, List.mem_map] at hnd
    rcases List.mem_cons.mp h with h1 | h1
    · subst h1; simp [List.lookup]
    · have hne : (k == hd.1) = false := by
        apply beq_eq_false_iff_ne.mpr
        intro he
        exact hnd.1 ⟨(k, v), h1, by simp [he]⟩
      simp only [List.lookup, hne]
      exact ih hnd.2 h1

theorem lookup_isSome_of_mem {α : Type} (l : List (String × α)) (k : String)
    (h : k ∈ l.map Prod.fst) : ∃ v, l.lookup k = some v := by
  induction l with
  | nil => simp at h
  | cons hd tl ih =>
    by_cases he : k = hd.1
    · exact ⟨hd.2, by simp [List.lookup, he]⟩
    · have hne : (k == hd.1) = false := beq_eq_false_iff_ne.mpr he
      have htl : k ∈ tl.map Prod.fst := by
        rcases List.mem_map.mp h with ⟨a, ha, hak⟩
        rcases List.mem_cons.mp ha with h2 | h2
        · exact absurd (h2 ▸ hak).symm he
        · exact List.mem_map.mpr ⟨a, h2, hak⟩
      simp only [List.lookup, hne]
      exact ih htl

theorem lookupContentPairs_some {β : Type} (conts : List (String × String))
    (l : List (String × β))
    (h : ∀ pv ∈ l, pv.1 ∈ conts.map Prod.fst) :
    ∃ out, lookupContentPairs conts l = some out ∧
      out.map Prod.fst = l.map Prod.fst := by
  induction l with
  | nil => exact ⟨[], rfl, rfl⟩
  | cons pv rest ih =>
    obtain ⟨c, hc⟩ := lookup_isSome_of_mem conts pv.1 (h pv (List.mem_cons_self pv rest))
    obtain ⟨out, hout, hmap⟩ := ih fun qv hq => h qv (List.mem_cons_of_mem pv hq)
    refine ⟨(pv.1, c) :: out, ?_, by simp [hmap]⟩
    simp [lookupContentPairs, hc, hout]

theorem dictInsert_append_of_not_mem {α : Type} (k : String) (v : α)
    (l : List (String × α)) (h : k ∉ l.map Prod.fst) :
    dictInsert k v l = l ++ [(k, v)] := by
  induction l with
  | nil => rfl
  | cons hd tl ih =>
    have hne : hd.1 ≠ k := by
      intro he
      exact h (List.mem_map.mpr ⟨hd, List.mem_cons_self hd tl, he⟩)
    simp only [dictInsert, if_neg hne, List.cons_append]
    rw [ih fun hm => h (by simpa using Or.inr (by simpa using hm))]

theorem foldl_dictInsert_eq_append {α : Type} (g : CommitInfo → α) :
    ∀ (history : List CommitInfo) (acc : List (String × α)),
      (history.map CommitInfo.hash).Nodup →
      (∀ c ∈ history, c.hash ∉ acc.map Prod.fst) →
      history.foldl (fun d c => dictInsert c.hash (g c) d) acc
        = acc ++ history.map (fun c => (c.hash, g c)) := by
  intro history
  induction history with
  | nil => intro acc _ _; simp
  | cons c rest ih =>
    intro acc hnd hdisj
    simp only [List.map_cons, List.nodup_cons] at hnd
    rw [List.foldl_cons]
    rw [dictInsert_append_of_not_mem c.hash (g c) acc
      (hdisj c (List.mem_cons_self c rest))]
    rw [ih (acc ++ [(c.hash, g c)]) hnd.2 ?_]
    · simp
    · intro d hd
      simp only [List.map_append, List.mem_append, List.map_cons, List.map_nil]
      rintro (hmem | hmem)
      · exact hdisj d (List.mem_cons_of_mem c hd) hmem
      · have : d.hash = c.hash := by simpa using hmem
        exact hnd.1 (this ▸ List.mem_map.mpr ⟨d, hd, rfl⟩)

/-! ## C8 -/

/-- C8: with a well-formed index (dictionary keys unique, every embedded
path also stored in `file_contents` — the crawler guarantees both),
`search_relevant_files` returns `some []` when no embeddings exist, and
otherwise `min top_k |index|` results that are sorted by weakly
descending similarity, dominate every non-selected embedded path, and —
within each tied similarity value — keep the original index order (the
selected tied paths are a prefix of the tied paths in index order). -/
theorem C8_file_search {V β : Type} [LinearOrder β] (encode : String → V)
    (cosineSim : V → V → β) (file_embeddings : List (String × V))
    (file_contents : List (String × String)) (query : String) (top_k : Nat) (d0 : β)
    (hnd : (file_embeddings.map Prod.fst).Nodup)
    (hsub : ∀ p ∈ file_embeddings.map Prod.fst, p ∈ file_contents.map Prod.fst) :
    (file_embeddings = [] →
      search_relevant_files encode cosineSim file_embeddings file_contents query top_k
        = some []) ∧
    ∃ out,
      search_relevant_files encode cosineSim file_embeddings file_contents query top_k
          = some out ∧
      out.length = min top_k file_embeddings.length ∧
      (out.map Prod.fst).Pairwise (fun a b =>
        fileSimOf encode cosineSim file_embeddings query d0 b ≤
          fileSimOf encode cosineSim file_embeddings query d0 a) ∧
      (∀ p ∈ out.map Prod.fst, ∀ q ∈ file_embeddings.map Prod.fst,
        q ∉ out.map Prod.fst →
          fileSimOf encode cosineSim file_embeddings query d0 q ≤
            fileSimOf encode cosineSim file_embeddings query d0 p) ∧
      (∀ v : β,
        (out.map Prod.fst).filter
            (fun p => decide (fileSimOf encode cosineSim file_embeddings query d0 p = v))
          <+: (file_embeddings.map Prod.fst).filter
            (fun p => decide (fileSimOf encode cosineSim file_embeddings query d0 p = v))) := by
  by_cases hemp : file_embeddings = []
  · subst hemp
    refine ⟨fun _ => rfl, [], rfl, by simp, by simp, by simp, fun v => ⟨_, rfl⟩⟩
  · have hbool : file_embeddings.isEmpty = false := by
      cases hfe : file_embeddings with
      | nil => exact absurd hfe hemp
      | cons a as => rfl
    set simOf := fileSimOf encode cosineSim file_embeddings query d0 with hsimOf
    set sims := file_embeddings.map
      (fun pe => (pe.1, cosineSim (encode query) pe.2)) with hsims
    have hsimskeys : sims.map Prod.fst = file_embeddings.map Prod.fst := by
      rw [hsims, List.map_map]
      rfl
    have factA : ∀ pv ∈ sims, pv.2 = simOf pv.1 ∧ pv.1 ∈ file_embeddings.map Prod.fst := by
      intro pv hpv
      rw [hsims] at hpv
      rcases List.mem_map.mp hpv with ⟨pe, hpe, hpveq⟩
      have hlk : file_embeddings.lookup pe.1 = some pe.2 :=
        lookup_eq_some_of_mem_nodup file_embeddings pe.1 pe.2 hnd (by
          have : pe = (pe.1, pe.2) := rfl
          rw [← this]
          exact hpe)
      constructor
      · rw [← hpveq]
        simp only [hsimOf]
        unfold fileSimOf
        rw [hlk]
      · rw [← hpveq]
        exact List.mem_map.mpr ⟨pe, hpe, rfl⟩
    set sortedL := pySortedDescBy (fun x => x.2) sims with hsorted
    have hperm : List.Perm sortedL sims := pySortedDescBy_perm _ sims
    set takeL := sortedL.take top_k with htake
    have htakemem : ∀ pv ∈ takeL, pv ∈ sims := by
      intro pv hpv
      exact hperm.mem_iff.mp (List.mem_of_mem_take hpv)
    obtain ⟨out, hout, hmapfst⟩ :=
      lookupContentPairs_some file_contents takeL
        (fun pv hpv => hsub pv.1 (factA pv (htakemem pv hpv)).2)
    have hsearch :
        search_relevant_files encode cosineSim file_embeddings file_contents query top_k
          = lookupContentPairs file_contents takeL := by
      unfold search_relevant_files
      rw [hbool]
      rfl
    refine ⟨fun hfe => absurd hfe hemp, out, by rw [hsearch, hout], ?_, ?_, ?_, ?_⟩
    · have h1 : out.length = takeL.length := by
        rw [← List.length_map out Prod.fst, hmapfst, List.length_map]
      rw [h1, htake, List.length_take, hsorted, hperm.length_eq, hsims, List.length_map]
    · rw [hmapfst]
      have htakepw : takeL.Pairwise (descRel (fun x : String × β => x.2)) :=
        (pySortedDescBy_pairwise _ sims).sublist (List.take_sublist top_k sortedL)
      refine List.pairwise_map.mpr ?_
      refine htakepw.imp_of_mem ?_
      intro a b ha hb hr
      have ha2 := (factA a (htakemem a ha)).1
      have hb2 := (factA b (htakemem b hb)).1
      rw [← ha2, ← hb2]
      exact hr
    · intro p hp q hq hqnot
      rw [hmapfst] at hp hqnot
      rcases List.mem_map.mp hp with ⟨pv, hpv, hpveq⟩
      rw [← hsimskeys] at hq
      rcases List.mem_map.mp hq with ⟨qv, hqv, hqveq⟩
      have hqsorted : qv ∈ sortedL := hperm.mem_iff.mpr hqv
      have hqdrop : qv ∈ sortedL.drop top_k := by
        rcases List.mem_append.mp
          (by rw [List.take_append_drop top_k sortedL]; exact hqsorted) with hcase | hcase
        · exact absurd (List.mem_map.mpr ⟨qv, hcase, hqveq⟩) hqnot
        · exact hcase
      have hge := pySortedDescBy_take_ge (fun x : String × β => x.2) sims top_k
        pv hpv qv hqdrop
      have hp2 := (factA pv (htakemem pv hpv)).1
      have hq2 := (factA qv (hperm.mem_iff.mp hqsorted)).1
      rw [← hpveq, ← hqveq, ← hp2, ← hq2]
      exact hge
    · intro v
      have hcongr1 :
          takeL.filter (fun pv => decide (simOf pv.1 = v))
            = takeL.filter (fun pv => decide (pv.2 = v)) := by
        refine List.filter_congr ?_
        intro pv hpv
        rw [(factA pv (htakemem pv hpv)).1]
      have hcongr2 :
          sims.filter (fun pv => decide (simOf pv.1 = v))
            = sims.filter (fun pv => decide (pv.2 = v)) := by
        refine List.filter_congr ?_
        intro pv hpv
        rw [(factA pv hpv).1]
      have hstep1 : (out.map Prod.fst).filter (fun p => decide (simOf p = v))
          = (takeL.filter (fun pv => decide (pv.2 = v))).map Prod.fst := by
        rw [hmapfst, List.filter_map, ← hcongr1]
        rfl
      have hstep3 : (file_embeddings.map Prod.fst).filter (fun p => decide (simOf p = v))
          = (sims.filter (fun pv => decide (pv.2 = v))).map Prod.fst := by
        rw [← hsimskeys, List.filter_map, ← hcongr2]
        rfl
      rw [hstep1, hstep3]
      have hpre : takeL.filter (fun pv => decide (pv.2 = v))
          <+: sortedL.filter (fun pv => decide (pv.2 = v)) := by
        have htp := List.take_prefix top_k sortedL
        exact htp.filter _
      rw [hsorted] at hpre
      rw [pySortedDescBy_filter_val (fun x : String × β => x.2) sims v] at hpre
      exact hpre.map Prod.fst

/-- Integer dot product; on unit basis vectors it coincides with cosine
similarity, making it a faithful concrete instance of `cosineSim`. -/
def dotInt (x y : List Int) : Int := (List.zipWith (fun a b => a * b) x y).sum

/-- A two-file embedding index on unit basis vectors. -/
def filesC8 : List (String × List Int) := [("a.py", [1, 0]), ("b.py", [0, 1])]

def contsC8 : List (String × String) := [("a.py", "print(1)"), ("b.py", "print(2)")]

/-- Encoder stub: the query maps to the basis vector `[0, 1]`. -/
def encodeC8 : String → List Int := fun _ => [0, 1]

/-- Witness for `C8_file_search` with `top_k = 1`: the single most
similar file is returned. -/
theorem C8_file_search_witness :
    ((filesC8.map Prod.fst).Nodup) ∧
    (∀ p ∈ filesC8.map Prod.fst, p ∈ contsC8.map Prod.fst) ∧
    (∃ out,
      search_relevant_files encodeC8 dotInt filesC8 contsC8 "q" 1 = some out ∧
      out.length = min 1 filesC8.length ∧
      (out.map Prod.fst).Pairwise (fun a b =>
        fileSimOf encodeC8 dotInt filesC8 "q" 0 b ≤ fileSimOf encodeC8 dotInt filesC8 "q" 0 a) ∧
      (∀ p ∈ out.map Prod.fst, ∀ q ∈ filesC8.map Prod.fst,
        q ∉ out.map Prod.fst →
          fileSimOf encodeC8 dotInt filesC8 "q" 0 q ≤ fileSimOf encodeC8 dotInt filesC8 "q" 0 p) ∧
      (∀ v : Int,
        (out.map Prod.fst).filter (fun p => decide (fileSimOf encodeC8 dotInt filesC8 "q" 0 p = v))
          <+: (filesC8.map Prod.fst).filter
            (fun p => decide (fileSimOf encodeC8 dotInt filesC8 "q" 0 p = v)))) :=
  ⟨by decide, by decide,
   (C8_file_search encodeC8 dotInt filesC8 contsC8 "q" 1 0 (by decide) (by decide)).2⟩

/-! ## C3 -/

/-- The similarity score `search_commit_history` computes for one
cached commit: query embedding against commit-message embedding. -/
def commitSimOf {V β : Type} [LinearOrder β] (encode : String → V)
    (cosineSim : V → V → β) (query : String) (c : CommitInfo) : β :=
  cosineSim (encode query) (encode c.message)

/-- Two cached commit records with distinct hashes and messages. -/
def cAlpha : CommitInfo :=
  { hash := "1111111aaaaaaaaaaaaaaaaaaaaaaaaaaaaaaaaa"
    short_hash := "1111111"
    author := "Alice <alice@example.com>"
    date := "2024-03-01T00:00:00"
    message := "alpha"
    stats := ⟨0, 0, 0, none⟩
    file_changes := [] }

def cBeta : CommitInfo :=
  { hash := "2222222bbbbbbbbbbbbbbbbbbbbbbbbbbbbbbbbb"
    short_hash := "2222222"
    author := "Bob <bob@example.com>"
    date := "2024-03-02T00:00:00"
    message := "beta"
    stats := ⟨0, 0, 0, none⟩
    file_changes := [] }

/-- Encoder stub on unit basis vectors: the query and `"beta"` map to
`[0, 1]`, everything else to `[1, 0]`; `dotInt` is then exactly the
cosine similarity of these unit vectors. -/
def encodeC3 : String → List Int := fun s => if s = "beta" || s = "q" then [0, 1] else [1, 0]

/-- C3 counterexample: the query is strictly more similar to `cBeta`'s
message than to `cAlpha`'s, yet `search_commit_history` returns
`[cAlpha, cBeta]` — original history order, not descending similarity
order (the claim would require `cBeta` first).  (The hardwired `[:5]`
cannot even be stated: the embedded signature, like the source's, has
no `top_k` parameter.) -/
theorem C3_counterexample :
    search_commit_history encodeC3 dotInt [cAlpha, cBeta] "q" = [cAlpha, cBeta] ∧
    dotInt (encodeC3 "q") (encodeC3 cAlpha.message) <
      dotInt (encodeC3 "q") (encodeC3 cBeta.message) := by
  refine ⟨by decide, by decide⟩

/-- C3 (amended): with unique cached hashes, `search_commit_history`
returns a subsequence of the cached history (original iteration order),
of length `min 5 |history|` (K is fixed at 5, not caller-supplied), and
the returned commits dominate every non-returned cached commit in
similarity. -/
theorem C3_commit_search {V β : Type} [LinearOrder β] (encode : String → V)
    (cosineSim : V → V → β) (history : List CommitInfo) (query : String)
    (hnd : (history.map CommitInfo.hash).Nodup) :
    List.Sublist (search_commit_history encode cosineSim history query) history ∧
    (search_commit_history encode cosineSim history query).length
      = min 5 history.length ∧
    (∀ c ∈ search_commit_history encode cosineSim history query, ∀ d ∈ history,
      d ∉ search_commit_history encode cosineSim history query →
        commitSimOf encode cosineSim query d ≤ commitSimOf encode cosineSim query c) := by
  by_cases hemp : history = []
  · subst hemp
    refine ⟨by simp [search_commit_history], by simp [search_commit_history], by simp⟩
  · have hbool : history.isEmpty = false := by
      cases hfe : history with
      | nil => exact absurd hfe hemp
      | cons a as => rfl
    have hemb : history.foldl (fun d c => dictInsert c.hash (encode c.message) d) []
        = history.map (fun c => (c.hash, encode c.message)) := by
      have := foldl_dictInsert_eq_append (fun c => encode c.message) history [] hnd
        (by simp)
      simpa using this
    set sims := history.map
      (fun c => (c.hash, commitSimOf encode cosineSim query c)) with hsims
    have hsims2 : (history.map (fun c => (c.hash, encode c.message))).map
        (fun he => (he.1, cosineSim (encode query) he.2)) = sims := by
      rw [List.map_map]
      rfl
    set sortedL := pySortedDescBy (fun x : String × β => x.2) sims with hsorted
    have hperm : List.Perm sortedL sims := pySortedDescBy_perm _ sims
    set S := (sortedL.take 5).map Prod.fst with hS
    have hres : search_commit_history encode cosineSim history query
        = history.filter (fun c => S.contains c.hash) := by
      unfold search_commit_history
      simp only [hbool, Bool.false_eq_true, if_false]
      rw [hemb, hsims2]
    have hsimskeys : sims.map Prod.fst = history.map CommitInfo.hash := by
      rw [hsims, List.map_map]
      rfl
    have hsortkeysnd : (sortedL.map Prod.fst).Nodup := by
      refine ((hperm.map Prod.fst).nodup_iff).mpr ?_
      rw [hsimskeys]
      exact hnd
    have hSnodup : S.Nodup := by
      refine hsortkeysnd.sublist ?_
      exact (List.take_sublist 5 sortedL).map Prod.fst
    have hSsub : ∀ h ∈ S, h ∈ history.map CommitInfo.hash := by
      intro h hh
      rcases List.mem_map.mp hh with ⟨pv, hpv, hfst⟩
      rw [← hsimskeys]
      exact List.mem_map.mpr ⟨pv, hperm.mem_iff.mp (List.mem_of_mem_take hpv), hfst⟩
    have factB : ∀ pv ∈ sims, ∀ c ∈ history, pv.1 = c.hash →
        pv.2 = commitSimOf encode cosineSim query c := by
      intro pv hpv c hc hh
      rw [hsims] at hpv
      rcases List.mem_map.mp hpv with ⟨e, he, heq⟩
      have hce : e = c := by
        refine List.inj_on_of_nodup_map hnd he hc ?_
        rw [show e.hash = pv.1 by rw [← heq], hh]
      rw [← heq, hce]
    refine ⟨?_, ?_, ?_⟩
    · rw [hres]
      exact List.filter_sublist history
    · rw [hres]
      have hfm : (history.filter (fun c => S.contains c.hash)).length
          = ((history.map CommitInfo.hash).filter (fun h => S.contains h)).length := by
        rw [List.filter_map, List.length_map]
        rfl
      rw [hfm]
      have hpermS : List.Perm
          ((history.map CommitInfo.hash).filter (fun h => S.contains h)) S := by
        refine (List.perm_ext_iff_of_nodup (hnd.filter _) hSnodup).mpr ?_
        intro a
        constructor
        · intro ha
          have := List.of_mem_filter ha
          simpa using this
        · intro ha
          refine List.mem_filter.mpr ⟨hSsub a ha, by simpa using ha⟩
      rw [hpermS.length_eq, hS, List.length_map, List.length_take,
        hperm.length_eq, hsims, List.length_map]
    · intro c hc d hd hdnot
      rw [hres] at hc hdnot
      have hcmem := List.mem_of_mem_filter hc
      have hcS : c.hash ∈ S := by
        have := List.of_mem_filter hc
        simpa using this
      have hdS : d.hash ∉ S := by
        intro hin
        exact hdnot (List.mem_filter.mpr ⟨hd, by simpa using hin⟩)
      rcases List.mem_map.mp hcS with ⟨pv, hpv, hpvfst⟩
      have hpvsims : pv ∈ sims := hperm.mem_iff.mp (List.mem_of_mem_take hpv)
      have hpvval : pv.2 = commitSimOf encode cosineSim query c :=
        factB pv hpvsims c hcmem hpvfst
      have hdv : (d.hash, commitSimOf encode cosineSim query d) ∈ sims := by
        rw [hsims]
        exact List.mem_map.mpr ⟨d, hd, rfl⟩
      have hdsorted : (d.hash, commitSimOf encode cosineSim query d) ∈ sortedL :=
        hperm.mem_iff.mpr hdv
      have hddrop : (d.hash, commitSimOf encode cosineSim query d) ∈ sortedL.drop 5 := by
        rcases List.mem_append.mp
            (by rw [List.take_append_drop 5 sortedL]; exact hdsorted) with hcase | hcase
        · exact absurd (List.mem_map.mpr ⟨_, hcase, rfl⟩) hdS
        · exact hcase
      have hle := pySortedDescBy_take_ge (fun x : String × β => x.2) sims 5 pv hpv _ hddrop
      simp only [] at hle
      rw [hpvval] at hle
      exact hle

/-- Witness for `C3_commit_search` on the two-commit history. -/
theorem C3_commit_search_witness :
    (([cAlpha, cBeta].map CommitInfo.hash).Nodup) ∧
    (List.Sublist (search_commit_history encodeC3 dotInt [cAlpha, cBeta] "q")
        [cAlpha, cBeta] ∧
      (search_commit_history encodeC3 dotInt [cAlpha, cBeta] "q").length
        = min 5 [cAlpha, cBeta].length ∧
      (∀ c ∈ search_commit_history encodeC3 dotInt [cAlpha, cBeta] "q",
        ∀ d ∈ [cAlpha, cBeta],
          d ∉ search_commit_history encodeC3 dotInt [cAlpha, cBeta] "q" →
            commitSimOf encodeC3 dotInt "q" d ≤ commitSimOf encodeC3 dotInt "q" c)) :=
  ⟨by decide, C3_commit_search encodeC3 dotInt [cAlpha, cBeta] "q" (by decide)⟩

/-! ## Crawler lemmas: path heads, characterization, structure -/

theorem string_ne_empty_iff (s : String) : s ≠ "" ↔ s.data ≠ [] := by
  constructor
  · intro h hd
    exact h (by cases s; simp at hd; rw [hd])
  · intro h he
    exact h (by rw [he])

theorem joinPre_empty (name : String) : joinPre "" name = name := rfl

theorem joinPre_data (pre name : String) (h : pre ≠ "") :
    (joinPre pre name).data = pre.data ++ '/' :: name.data := by
  unfold joinPre
  rw [if_neg h]
  rw [String.data_append, String.data_append]
  rw [show ("/" : String).data = ['/'] from rfl, List.append_assoc]
  rfl

theorem joinPre_ne_empty (pre name : String) (h : pre ≠ "") : joinPre pre name ≠ "" := by
  rw [string_ne_empty_iff, joinPre_data pre name h]
  rcases (string_ne_empty_iff pre).mp h with hd
  intro hcontra
  cases hp : pre.data with
  | nil => exact hd hp
  | cons c cs => rw [hp] at hcontra; simp at hcontra

theorem startsDot_joinPre (pre name : String) (h : pre ≠ "") :
    startsDot (joinPre pre name) = startsDot pre := by
  unfold startsDot
  rw [joinPre_data pre name h]
  cases hp : pre.data with
  | nil => exact absurd hp ((string_ne_empty_iff pre).mp h)
  | cons c cs => rfl

/-- The `file_contents` entry the walk produces for one reachable file
(`none` when the loop body stores nothing). -/
def emitC (pre : String) (e : List String × String × ReadResult) : Option (String × String) :=
  if emitsEntry e.2.1 e.2.2 then
    some (pathOfComponents pre e.1 e.2.1, contentValue e.2.1 e.2.2)
  else none

theorem crawlFiles_contents {V : Type} (encode : String → V) (pre : String)
    (files : List (String × ReadResult)) :
    (crawlFiles encode pre files).1 =
      files.filterMap (fun f =>
        if startsDot f.1 then none else emitC pre ([], f.1, f.2)) := by
  induction files with
  | nil => rfl
  | cons f rest ih =>
    obtain ⟨name, rr⟩ := f
    by_cases hd : startsDot name
    · simp only [crawlFiles, hd, if_true, List.filterMap_cons]
      exact ih
    · by_cases hb : isBinaryName name
      · have hhead : emitC pre ([], name, rr) = some (joinPre pre name, binaryMarker) := by
          simp [emitC, emitsEntry, hb, contentValue, pathOfComponents]
        simp only [crawlFiles, hd, Bool.false_eq_true, if_false, hb, if_true,
          List.filterMap_cons, hhead]
        rw [ih]
      · cases rr with
        | content s =>
          have hhead : emitC pre ([], name, ReadResult.content s)
              = some (joinPre pre name, s) := by
            simp [emitC, emitsEntry, hb, contentValue, pathOfComponents]
          simp only [crawlFiles, hd, Bool.false_eq_true, if_false, hb,
            List.filterMap_cons, hhead]
          rw [ih]
        | readFail =>
          have hhead : emitC pre ([], name, ReadResult.readFail)
              = some (joinPre pre name, binaryMarker) := by
            simp [emitC, emitsEntry, hb, contentValue, pathOfComponents]
          simp only [crawlFiles, hd, Bool.false_eq_true, if_false, hb,
            List.filterMap_cons, hhead]
          rw [ih]
        | notAFile =>
          have hhead : emitC pre ([], name, ReadResult.notAFile) = none := by
            simp [emitC, emitsEntry, hb]
          simp only [crawlFiles, hd, Bool.false_eq_true, if_false, hb,
            List.filterMap_cons, hhead]
          exact ih

mutual

theorem crawlTree_contents {V : Type} (encode : String → V) (pre : String) (t : FTree) :
    (crawlTree encode pre t).1 = (reachableT t).filterMap (emitC pre) := by
  match t with
  | FTree.node files dirs =>
    simp only [crawlTree, reachableT, List.filterMap_append]
    rw [crawlFiles_contents encode pre files, crawlDirs_contents encode pre dirs]
    congr 1
    rw [List.filterMap_filterMap]
    congr 1
    funext f
    by_cases hd : startsDot f.1 <;> simp [hd]

theorem crawlDirs_contents {V : Type} (encode : String → V) (pre : String) (d : Dirs) :
    (crawlDirs encode pre d).1 = (reachableD d).filterMap (emitC pre) := by
  match d with
  | Dirs.nil => rfl
  | Dirs.cons name sub rest =>
    by_cases hd : startsDot name
    · simp only [crawlDirs, hd, if_true, reachableD, List.filterMap_append]
      rw [crawlDirs_contents encode pre rest]
      simp
    · simp only [crawlDirs, hd, Bool.false_eq_true, if_false, reachableD,
        List.filterMap_append]
      rw [crawlTree_contents encode (joinPre pre name) sub,
        crawlDirs_contents encode pre rest]
      congr 1
      rw [List.filterMap_map]
      rfl

end

theorem crawlFiles_embkeys {V : Type} (encode : String → V) (pre : String)
    (files : List (String × ReadResult)) :
    ∀ p ∈ ((crawlFiles encode pre files).2.1).map Prod.fst,
      p ∈ ((crawlFiles encode pre files).1).map Prod.fst := by
  induction files with
  | nil => intro p hp; simp [crawlFiles] at hp
  | cons f rest ih =>
    obtain ⟨name, rr⟩ := f
    intro p hp
    by_cases hd : startsDot name
    · simp only [crawlFiles, hd, if_true] at hp ⊢
      exact ih p hp
    · by_cases hb : isBinaryName name
      · simp only [crawlFiles, hd, Bool.false_eq_true, if_false, hb, if_true,
          List.map_cons, List.mem_cons] at hp ⊢
        exact Or.inr (ih p hp)
      · cases rr with
        | content s =>
          simp only [crawlFiles, hd, Bool.false_eq_true, if_false, hb,
            List.map_cons, List.mem_cons] at hp ⊢
          rcases hp with hp | hp
          · exact Or.inl hp
          · exact Or.inr (ih p hp)
        | readFail =>
          simp only [crawlFiles, hd, Bool.false_eq_true, if_false, hb,
            List.map_cons, List.mem_cons] at hp ⊢
          exact Or.inr (ih p hp)
        | notAFile =>
          simp only [crawlFiles, hd, Bool.false_eq_true, if_false, hb] at hp ⊢
          exact ih p hp

mutual

theorem crawlTree_embkeys {V : Type} (encode : String → V) (pre : String) (t : FTree) :
    ∀ p ∈ ((crawlTree encode pre t).2.1).map Prod.fst,
      p ∈ ((crawlTree encode pre t).1).map Prod.fst := by
  match t with
  | FTree.node files dirs =>
    intro p hp
    simp only [crawlTree, List.map_append, List.mem_append] at hp ⊢
    rcases hp with hp | hp
    · exact Or.inl (crawlFiles_embkeys encode pre files p hp)
    · exact Or.inr (crawlDirs_embkeys encode pre dirs p hp)

theorem crawlDirs_embkeys {V : Type} (encode : String → V) (pre : String) (d : Dirs) :
    ∀ p ∈ ((crawlDirs encode pre d).2.1).map Prod.fst,
      p ∈ ((crawlDirs encode pre d).1).map Prod.fst := by
  match d with
  | Dirs.nil => intro p hp; simp [crawlDirs] at hp
  | Dirs.cons name sub rest =>
    intro p hp
    by_cases hd : startsDot name
    · simp only [crawlDirs, hd, if_true] at hp ⊢
      exact crawlDirs_embkeys encode pre rest p hp
    · simp only [crawlDirs, hd, Bool.false_eq_true, if_false, List.map_append,
        List.mem_append] at hp ⊢
      rcases hp with hp | hp
      · exact Or.inl (crawlTree_embkeys encode (joinPre pre name) sub p hp)
      · exact Or.inr (crawlDirs_embkeys encode pre rest p hp)

end

mutual

theorem reachableT_no_dot (t : FTree) :
    ∀ e ∈ reachableT t, (∀ d ∈ e.1, startsDot d = false) ∧ startsDot e.2.1 = false := by
  match t with
  | FTree.node files dirs =>
    intro e he
    simp only [reachableT, List.mem_append] at he
    rcases he with he | he
    · rcases List.mem_filterMap.mp he with ⟨f, _, hf⟩
      by_cases hd : startsDot f.1
      · simp [hd] at hf
      · simp only [hd, Bool.false_eq_true, if_false, Option.some.injEq] at hf
        subst hf
        exact ⟨by intro d hd2; simp at hd2, by simpa using hd⟩
    · exact reachableD_no_dot dirs e he

theorem reachableD_no_dot (d : Dirs) :
    ∀ e ∈ reachableD d, (∀ x ∈ e.1, startsDot x = false) ∧ startsDot e.2.1 = false := by
  match d with
  | Dirs.nil => intro e he; simp [reachableD] at he
  | Dirs.cons name sub rest =>
    intro e he
    simp only [reachableD, List.mem_append] at he
    rcases he with he | he
    · by_cases hd : startsDot name
      · simp [hd] at he
      · simp only [hd, Bool.false_eq_true, if_false] at he
        rcases List.mem_map.mp he with ⟨e0, he0, heq⟩
        obtain ⟨h1, h2⟩ := reachableT_no_dot sub e0 he0
        subst heq
        refine ⟨?_, h2⟩
        intro x hx
        rcases List.mem_cons.mp hx with hx | hx
        · subst hx; simpa using hd
        · exact h1 x hx
    · exact reachableD_no_dot rest e he

end

/-- Path components without a leading dot produce a path whose head
character is that of the prefix (or dot-free when crawled from the
root). -/
theorem pathOfComponents_dot (ds : List String) :
    ∀ (pre name : String), (∀ d ∈ ds, startsDot d = false) → startsDot name = false →
      (pre = "" → startsDot (pathOfComponents pre ds name) = false) ∧
      (pre ≠ "" → startsDot (pathOfComponents pre ds name) = startsDot pre) := by
  induction ds with
  | nil =>
    intro pre name _ hname
    constructor
    · intro hpre
      subst hpre
      simpa [pathOfComponents, joinPre_empty] using hname
    · intro hpre
      unfold pathOfComponents
      simp only [List.foldl_nil]
      exact startsDot_joinPre pre name hpre
  | cons d ds' ih =>
    intro pre name hds hname
    have hd : startsDot d = false := hds d (List.mem_cons_self d ds')
    have hds' : ∀ x ∈ ds', startsDot x = false :=
      fun x hx => hds x (List.mem_cons_of_mem d hx)
    have hfold : pathOfComponents pre (d :: ds') name
        = pathOfComponents (joinPre pre d) ds' name := rfl
    constructor
    · intro hpre
      subst hpre
      rw [hfold, joinPre_empty]
      by_cases hdemp : d = ""
      · subst hdemp
        exact (ih "" name hds' hname).1 rfl
      · rw [(ih d name hds' hname).2 hdemp]
        exact hd
    · intro hpre
      rw [hfold]
      rw [(ih (joinPre pre d) name hds' hname).2 (joinPre_ne_empty pre d hpre)]
      exact startsDot_joinPre pre d hpre

theorem fsLookupEntries_append (a b : FSEntries) (k : String) :
    fsLookupEntries (appendFSEntries a b) k =
      match fsLookupEntries a k with
      | some v => some v
      | none => fsLookupEntries b k := by
  match a with
  | FSEntries.nil => rfl
  | FSEntries.file n rest =>
    by_cases h : n = k
    · simp [appendFSEntries, fsLookupEntries, h]
    · simp only [appendFSEntries, fsLookupEntries, if_neg h]
      exact fsLookupEntries_append rest b k
  | FSEntries.dir n sub rest =>
    by_cases h : n = k
    · simp [appendFSEntries, fsLookupEntries, h]
    · simp only [appendFSEntries, fsLookupEntries, if_neg h]
      exact fsLookupEntries_append rest b k

theorem crawlFiles_fs_lookup_file {V : Type} (encode : String → V) (pre : String)
    (files : List (String × ReadResult)) (name : String) (rr : ReadResult)
    (hnd : (files.map Prod.fst).Nodup) (hmem : (name, rr) ∈ files)
    (hdot : startsDot name = false) (hemits : emitsEntry name rr = true) :
    fsLookupEntries (crawlFiles encode pre files).2.2 name = some none := by
  induction files with
  | nil => simp at hmem
  | cons f rest ih =>
    simp only [List.map_cons, List.nodup_cons] at hnd
    rcases List.mem_cons.mp hmem with hf | hf
    · subst hf
      by_cases hb : isBinaryName name
      · simp [crawlFiles, hdot, hb, fsLookupEntries]
      · cases rr with
        | content s => simp [crawlFiles, hdot, hb, fsLookupEntries]
        | readFail => simp [crawlFiles, hdot, hb, fsLookupEntries]
        | notAFile => simp [emitsEntry, hb] at hemits
    · have hne : f.1 ≠ name := by
        intro he
        exact hnd.1 (he ▸ List.mem_map.mpr ⟨(name, rr), hf, rfl⟩)
      have ihr := ih hnd.2 hf
      obtain ⟨fn, frr⟩ := f
      by_cases hd : startsDot fn
      · simp only [crawlFiles, hd, if_true]
        exact ihr
      · by_cases hb : isBinaryName fn
        · simp only [crawlFiles, hd, Bool.false_eq_true, if_false, hb, if_true,
            fsLookupEntries, if_neg hne]
          exact ihr
        · cases frr with
          | content s =>
            simp only [crawlFiles, hd, Bool.false_eq_true, if_false, hb,
              fsLookupEntries, if_neg hne]
            exact ihr
          | readFail =>
            simp only [crawlFiles, hd, Bool.false_eq_true, if_false, hb,
              fsLookupEntries, if_neg hne]
            exact ihr
          | notAFile =>
            simp only [crawlFiles, hd, Bool.false_eq_true, if_false, hb]
            exact ihr

theorem crawlFiles_fs_lookup_none {V : Type} (encode : String → V) (pre : String)
    (files : List (String × ReadResult)) (k : String)
    (hk : k ∉ files.map Prod.fst) :
    fsLookupEntries (crawlFiles encode pre files).2.2 k = none := by
  induction files with
  | nil => rfl
  | cons f rest ih =>
    obtain ⟨fn, frr⟩ := f
    have hne : fn ≠ k := by
      intro he
      exact hk (List.mem_map.mpr ⟨(fn, frr), List.mem_cons_self _ _, he⟩)
    have hk2 : k ∉ rest.map Prod.fst := by
      intro hm
      rcases List.mem_map.mp hm with ⟨g, hg, hgk⟩
      exact hk (List.mem_map.mpr ⟨g, List.mem_cons_of_mem _ hg, hgk⟩)
    by_cases hd : startsDot fn
    · simp only [crawlFiles, hd, if_true]
      exact ih hk2
    · by_cases hb : isBinaryName fn
      · simp only [crawlFiles, hd, Bool.false_eq_true, if_false, hb, if_true,
          fsLookupEntries, if_neg hne]
        exact ih hk2
      · cases frr with
        | content s =>
          simp only [crawlFiles, hd, Bool.false_eq_true, if_false, hb,
            fsLookupEntries, if_neg hne]
          exact ih hk2
        | readFail =>
          simp only [crawlFiles, hd, Bool.false_eq_true, if_false, hb,
            fsLookupEntries, if_neg hne]
          exact ih hk2
        | notAFile =>
          simp only [crawlFiles, hd, Bool.false_eq_true, if_false, hb]
          exact ih hk2

theorem reachableD_shape (d : Dirs) :
    ∀ e ∈ reachableD d, ∃ dn ds', e.1 = dn :: ds' ∧ dn ∈ dirNames d := by
  match d with
  | Dirs.nil => intro e he; simp [reachableD] at he
  | Dirs.cons name sub rest =>
    intro e he
    simp only [reachableD, List.mem_append] at he
    rcases he with he | he
    · by_cases hd : startsDot name
      · simp [hd] at he
      · simp only [hd, Bool.false_eq_true, if_false] at he
        rcases List.mem_map.mp he with ⟨e0, _, heq⟩
        subst heq
        exact ⟨name, e0.1, rfl, List.mem_cons_self _ _⟩
    · obtain ⟨dn, ds', hshape, hmem⟩ := reachableD_shape rest e he
      exact ⟨dn, ds', hshape, List.mem_cons_of_mem _ hmem⟩


theorem fsLookupPath_single (es : FSEntries) (n : String) :
    fsLookupPath (FS.node es) [n] = fsLookupEntries es n := rfl

theorem fsLookupPath_cons (es : FSEntries) (n c : String) (cs : List String) :
    fsLookupPath (FS.node es) (n :: c :: cs) =
      match fsLookupEntries es n with
      | some (some sub) => fsLookupPath sub (c :: cs)
      | _ => none := rfl

mutual

theorem crawlTree_fs_file {V : Type} (encode : String → V) (pre : String) (t : FTree)
    (hwf : wfTree t = true) :
    ∀ ds name rr, (ds, name, rr) ∈ reachableT t → emitsEntry name rr = true →
      fsLookupPath (FS.node (crawlTree encode pre t).2.2) (ds ++ [name]) = some none := by
  match t with
  | FTree.node files dirs =>
    intro ds name rr hmem hemits
    simp only [wfTree, Bool.and_eq_true, decide_eq_true_eq] at hwf
    have hnodup := hwf.1
    have hfilesnd : (files.map Prod.fst).Nodup := (List.nodup_append.mp hnodup).1
    have hdisj := (List.nodup_append.mp hnodup).2.2
    simp only [reachableT, List.mem_append] at hmem
    rcases hmem with hmem | hmem
    · rcases List.mem_filterMap.mp hmem with ⟨f, hf, hfe⟩
      by_cases hd : startsDot f.1
      · simp [hd] at hfe
      · simp only [hd, Bool.false_eq_true, if_false, Option.some.injEq] at hfe
        have hds : ds = [] := (congrArg Prod.fst hfe).symm
        have hname : name = f.1 := (congrArg (fun x => x.2.1) hfe).symm
        have hrr : rr = f.2 := (congrArg (fun x => x.2.2) hfe).symm
        subst hds hname hrr
        simp only [List.nil_append, crawlTree, fsLookupPath_single]
        rw [fsLookupEntries_append]
        rw [crawlFiles_fs_lookup_file encode pre files f.1 f.2 hfilesnd
          (by simpa using hf) (by simpa using hd) hemits]
    · obtain ⟨dn, ds2, hshape, hdnmem⟩ := reachableD_shape dirs _ hmem
      simp only at hshape
      subst hshape
      have hdirsnd : (dirNames dirs).Nodup := (List.nodup_append.mp hnodup).2.1
      obtain ⟨es, hlk, hrec⟩ :=
        crawlDirs_fs_file encode pre dirs hwf.2 hdirsnd dn ds2 name rr hmem hemits
      have hfilesnone : fsLookupEntries (crawlFiles encode pre files).2.2 dn = none := by
        refine crawlFiles_fs_lookup_none encode pre files dn ?_
        intro hin
        exact hdisj hin hdnmem
      cases ds2 with
      | nil =>
        simp only [List.cons_append, List.nil_append, crawlTree, fsLookupPath_cons]
        rw [fsLookupEntries_append, hfilesnone, hlk]
        exact hrec
      | cons c cs =>
        simp only [List.cons_append, crawlTree, fsLookupPath_cons]
        rw [fsLookupEntries_append, hfilesnone, hlk]
        simpa using hrec

theorem crawlDirs_fs_file {V : Type} (encode : String → V) (pre : String) (d : Dirs)
    (hwf : wfDirs d = true) (hnd : (dirNames d).Nodup) :
    ∀ dn ds2 name rr, (dn :: ds2, name, rr) ∈ reachableD d → emitsEntry name rr = true →
      ∃ es, fsLookupEntries (crawlDirs encode pre d).2.2 dn = some (some (FS.node es)) ∧
        fsLookupPath (FS.node es) (ds2 ++ [name]) = some none := by
  match d with
  | Dirs.nil => intro dn ds2 name rr hmem; simp [reachableD] at hmem
  | Dirs.cons n sub rest =>
    intro dn ds2 name rr hmem hemits
    simp only [wfDirs, Bool.and_eq_true] at hwf
    simp only [dirNames, List.nodup_cons] at hnd
    simp only [reachableD, List.mem_append] at hmem
    rcases hmem with hmem | hmem
    · by_cases hd : startsDot n
      · simp [hd] at hmem
      · simp only [hd, Bool.false_eq_true, if_false] at hmem
        rcases List.mem_map.mp hmem with ⟨e0, he0, heq⟩
        have hdn : dn = n := by
          have h1 := congrArg Prod.fst heq
          simp only at h1
          exact ((List.cons.injEq n e0.1 dn ds2).mp h1).1.symm
        have hds2 : ds2 = e0.1 := by
          have h1 := congrArg Prod.fst heq
          simp only at h1
          exact ((List.cons.injEq n e0.1 dn ds2).mp h1).2.symm
        have hname : name = e0.2.1 := (congrArg (fun x => x.2.1) heq).symm
        have hrr : rr = e0.2.2 := (congrArg (fun x => x.2.2) heq).symm
        refine ⟨(crawlTree encode (joinPre pre n) sub).2.2, ?_, ?_⟩
        · simp only [crawlDirs, hd, Bool.false_eq_true, if_false, fsLookupEntries,
            if_pos hdn.symm]
        · subst hds2 hname hrr
          refine crawlTree_fs_file encode (joinPre pre n) sub hwf.1 e0.1 e0.2.1 e0.2.2
            ?_ hemits
          simpa using he0
    · obtain ⟨es, hlk, hrec⟩ :=
        crawlDirs_fs_file encode pre rest hwf.2 hnd.2 dn ds2 name rr hmem hemits
      have hne : n ≠ dn := by
        intro he
        obtain ⟨dn2, ds3, hshape, hdnmem⟩ := reachableD_shape rest _ hmem
        simp only at hshape
        have hdneq : dn = dn2 := ((List.cons.injEq dn ds2 dn2 ds3).mp hshape).1
        exact hnd.1 (he ▸ hdneq ▸ hdnmem)
      by_cases hd : startsDot n
      · simp only [crawlDirs, hd, if_true]
        exact ⟨es, hlk, hrec⟩
      · simp only [crawlDirs, hd, Bool.false_eq_true, if_false, fsLookupEntries,
          if_neg hne]
        exact ⟨es, hlk, hrec⟩

end

theorem fsCleanE_append (a b : FSEntries) (ha : fsCleanE a = true)
    (hb : fsCleanE b = true) : fsCleanE (appendFSEntries a b) = true := by
  match a with
  | FSEntries.nil => exact hb
  | FSEntries.file n rest =>
    simp only [fsCleanE, Bool.and_eq_true] at ha ⊢
    exact ⟨ha.1, fsCleanE_append rest b ha.2 hb⟩
  | FSEntries.dir n sub rest =>
    simp only [fsCleanE, Bool.and_eq_true] at ha ⊢
    exact ⟨⟨ha.1.1, ha.1.2⟩, fsCleanE_append rest b ha.2 hb⟩

theorem crawlFiles_fs_clean {V : Type} (encode : String → V) (pre : String)
    (files : List (String × ReadResult)) :
    fsCleanE (crawlFiles encode pre files).2.2 = true := by
  induction files with
  | nil => rfl
  | cons f rest ih =>
    obtain ⟨fn, frr⟩ := f
    by_cases hd : startsDot fn
    · simp only [crawlFiles, hd, if_true]
      exact ih
    · by_cases hb : isBinaryName fn
      · simp only [crawlFiles, hd, Bool.false_eq_true, if_false, hb, if_true, fsCleanE,
          Bool.and_eq_true, Bool.not_eq_true']
        exact ⟨by simpa using hd, ih⟩
      · cases frr with
        | content s =>
          simp only [crawlFiles, hd, Bool.false_eq_true, if_false, hb, fsCleanE,
            Bool.and_eq_true, Bool.not_eq_true']
          exact ⟨by simpa using hd, ih⟩
        | readFail =>
          simp only [crawlFiles, hd, Bool.false_eq_true, if_false, hb, fsCleanE,
            Bool.and_eq_true, Bool.not_eq_true']
          exact ⟨by simpa using hd, ih⟩
        | notAFile =>
          simp only [crawlFiles, hd, Bool.false_eq_true, if_false, hb]
          exact ih

mutual

theorem crawlTree_fs_clean {V : Type} (encode : String → V) (pre : String) (t : FTree) :
    fsCleanE (crawlTree encode pre t).2.2 = true := by
  match t with
  | FTree.node files dirs =>
    simp only [crawlTree]
    exact fsCleanE_append _ _ (crawlFiles_fs_clean encode pre files)
      (crawlDirs_fs_clean encode pre dirs)

theorem crawlDirs_fs_clean {V : Type} (encode : String → V) (pre : String) (d : Dirs) :
    fsCleanE (crawlDirs encode pre d).2.2 = true := by
  match d with
  | Dirs.nil => rfl
  | Dirs.cons n sub rest =>
    by_cases hd : startsDot n
    · simp only [crawlDirs, hd, if_true]
      exact crawlDirs_fs_clean encode pre rest
    · simp only [crawlDirs, hd, Bool.false_eq_true, if_false, fsCleanE,
        Bool.and_eq_true, Bool.not_eq_true']
      refine ⟨⟨by simpa using hd, ?_⟩, crawlDirs_fs_clean encode pre rest⟩
      exact crawlTree_fs_clean encode (joinPre pre n) sub

end

theorem fsLookupEntries_clean_name (es : FSEntries) (n : String)
    (hc : fsCleanE es = true) (h : fsLookupEntries es n ≠ none) :
    startsDot n = false := by
  match es with
  | FSEntries.nil => exact absurd rfl h
  | FSEntries.file m rest =>
    simp only [fsCleanE, Bool.and_eq_true, Bool.not_eq_true'] at hc
    by_cases hm : m = n
    · rw [← hm]; exact hc.1
    · simp only [fsLookupEntries, if_neg hm] at h
      exact fsLookupEntries_clean_name rest n hc.2 h
  | FSEntries.dir m sub rest =>
    simp only [fsCleanE, Bool.and_eq_true, Bool.not_eq_true'] at hc
    by_cases hm : m = n
    · rw [← hm]; exact hc.1.1
    · simp only [fsLookupEntries, if_neg hm] at h
      exact fsLookupEntries_clean_name rest n hc.2 h

theorem fsLookupEntries_clean_sub (es : FSEntries) (n : String) (sub : FS)
    (hc : fsCleanE es = true) (h : fsLookupEntries es n = some (some sub)) :
    fsCleanF sub = true := by
  match es with
  | FSEntries.nil => simp [fsLookupEntries] at h
  | FSEntries.file m rest =>
    simp only [fsCleanE, Bool.and_eq_true, Bool.not_eq_true'] at hc
    by_cases hm : m = n
    · simp [fsLookupEntries, hm] at h
    · simp only [fsLookupEntries, if_neg hm] at h
      exact fsLookupEntries_clean_sub rest n sub hc.2 h
  | FSEntries.dir m s rest =>
    simp only [fsCleanE, Bool.and_eq_true, Bool.not_eq_true'] at hc
    by_cases hm : m = n
    · simp only [fsLookupEntries, if_pos hm, Option.some.injEq] at h
      rw [← h]
      exact hc.1.2
    · simp only [fsLookupEntries, if_neg hm] at h
      exact fsLookupEntries_clean_sub rest n sub hc.2 h

theorem fsLookupPath_clean (ps : List String) :
    ∀ (fs : FS), fsCleanF fs = true → (∃ x, fsLookupPath fs ps = some x) →
      ps ≠ [] ∧ ∀ n ∈ ps, startsDot n = false := by
  induction ps with
  | nil =>
    intro fs _ hx
    obtain ⟨x, hx⟩ := hx
    obtain ⟨es⟩ := fs
    simp [fsLookupPath] at hx
  | cons n rest ih =>
    intro fs hc hx
    obtain ⟨x, hx⟩ := hx
    obtain ⟨es⟩ := fs
    have hcE : fsCleanE es = true := hc
    cases rest with
    | nil =>
      refine ⟨by simp, ?_⟩
      intro m hm
      rcases List.mem_cons.mp hm with hm | hm
      · subst hm
        refine fsLookupEntries_clean_name es m hcE ?_
        rw [fsLookupPath_single] at hx
        simp [hx]
      · simp at hm
    | cons c cs =>
      rw [fsLookupPath_cons] at hx
      rcases hlk : fsLookupEntries es n with _ | v
      · rw [hlk] at hx; simp at hx
      · rcases v with _ | sub
        · rw [hlk] at hx; simp at hx
        · rw [hlk] at hx
          have hsubclean := fsLookupEntries_clean_sub es n sub hcE hlk
          obtain ⟨hne, hall⟩ := ih sub hsubclean ⟨x, hx⟩
          refine ⟨by simp, ?_⟩
          intro m hm
          rcases List.mem_cons.mp hm with hm | hm
          · subst hm
            exact fsLookupEntries_clean_name es m hcE (by rw [hlk]; simp)
          · exact hall m hm

theorem githubWorkflowMatch_startsDot (p : String)
    (h : githubWorkflowMatch p = true) : startsDot p = true := by
  unfold githubWorkflowMatch at h
  have hpre : (".github/workflows/" : String).data.isPrefixOf p.data = true :=
    (Bool.and_eq_true _ _).mp h |>.1
  obtain ⟨tl, htl⟩ := List.isPrefixOf_iff_prefix.mp hpre
  have hdata : (".github/workflows/" : String).data
      = '.' :: ("github/workflows/" : String).data := rfl
  rw [hdata] at htl
  unfold startsDot
  rw [← htl]
  rfl

/-! ## C6 -/

/-- C6: on a well-formed working tree whose emitted paths are unique
(true of any real file system), every crawled file with a binary
extension — or whose read failed — maps to the binary marker in
`file_contents` AND still appears in `file_structure` as a `None` leaf
at its path, never silently dropped; and the crawl emits an entry for
every other eligible file regardless (one bad file never aborts the
walk, which is total by construction). -/
theorem C6_binary_marker_consistency {V : Type} (encode : String → V) (t : FTree)
    (hwf : wfTree t = true)
    (hnd : (((get_file_structure encode t).1).map Prod.fst).Nodup)
    (ds : List String) (name : String) (rr : ReadResult)
    (hmem : (ds, name, rr) ∈ reachableT t)
    (hbad : isBinaryName name = true ∨ rr = ReadResult.readFail) :
    ((get_file_structure encode t).1).lookup (pathOfComponents "" ds name)
        = some binaryMarker ∧
    fsLookupPath (get_file_structure encode t).2.2 (ds ++ [name]) = some none ∧
    (∀ ds2 name2 rr2, (ds2, name2, rr2) ∈ reachableT t → emitsEntry name2 rr2 = true →
      ∃ v, ((get_file_structure encode t).1).lookup (pathOfComponents "" ds2 name2)
        = some v) := by
  have hemits : emitsEntry name rr = true := by
    rcases hbad with hb | hb
    · simp [emitsEntry, hb]
    · subst hb
      by_cases hb2 : isBinaryName name <;> simp [emitsEntry, hb2]
  have hvalue : contentValue name rr = binaryMarker := by
    rcases hbad with hb | hb
    · simp [contentValue, hb]
    · subst hb
      by_cases hb2 : isBinaryName name <;> simp [contentValue, hb2]
  have hchar : (get_file_structure encode t).1 = (reachableT t).filterMap (emitC "") :=
    crawlTree_contents encode "" t
  have hpairmem : (pathOfComponents "" ds name, binaryMarker)
      ∈ (get_file_structure encode t).1 := by
    rw [hchar]
    refine List.mem_filterMap.mpr ⟨(ds, name, rr), hmem, ?_⟩
    simp [emitC, hemits, hvalue]
  refine ⟨?_, ?_, ?_⟩
  · exact lookup_eq_some_of_mem_nodup _ _ _ hnd hpairmem
  · exact crawlTree_fs_file encode "" t hwf ds name rr hmem hemits
  · intro ds2 name2 rr2 hmem2 hemits2
    have hpm2 : (pathOfComponents "" ds2 name2, contentValue name2 rr2)
        ∈ (get_file_structure encode t).1 := by
      rw [hchar]
      refine List.mem_filterMap.mpr ⟨(ds2, name2, rr2), hmem2, ?_⟩
      simp [emitC, hemits2]
    exact lookup_isSome_of_mem _ _ (List.mem_map.mpr ⟨_, hpm2, rfl⟩)

/-- The working tree of the specification's scenario:
`["README.md", "src/a.py", "logo.png"]`, with `logo.png` carrying a
binary extension. -/
def treeC6 : FTree :=
  FTree.node
    [("README.md", ReadResult.content "hello"),
     ("logo.png", ReadResult.content "PNGDATA")]
    (Dirs.cons "src" (FTree.node [("a.py", ReadResult.content "print(1)")] Dirs.nil)
      Dirs.nil)

/-- Witness for `C6_binary_marker_consistency` on the spec's scenario
tree: `logo.png` gets the binary marker yet stays in `file_structure`. -/
theorem C6_binary_marker_consistency_witness :
    wfTree treeC6 = true ∧
    (([], "logo.png", ReadResult.content "PNGDATA") ∈ reachableT treeC6) ∧
    isBinaryName "logo.png" = true ∧
    (((get_file_structure encodeC8 treeC6).1).lookup
        (pathOfComponents "" [] "logo.png") = some binaryMarker ∧
      fsLookupPath (get_file_structure encodeC8 treeC6).2.2 ["logo.png"] = some none ∧
      (∀ ds2 name2 rr2, (ds2, name2, rr2) ∈ reachableT treeC6 →
        emitsEntry name2 rr2 = true →
        ∃ v, ((get_file_structure encodeC8 treeC6).1).lookup
          (pathOfComponents "" ds2 name2) = some v)) :=
  ⟨by decide, by decide, by decide,
   C6_binary_marker_consistency encodeC8 treeC6 (by decide) (by decide)
     [] "logo.png" (ReadResult.content "PNGDATA") (by decide) (Or.inl (by decide))⟩

/-! ## C9 -/

/-- C9: the crawler skips every dot-file and prunes every
dot-directory, so no key of `file_contents` or `file_embeddings` starts
with a dot, every path navigable in `file_structure` consists of
dot-free components — and consequently the important-file pattern for
GitHub Actions workflows (`\.github/workflows/.*\.yml$`, matched
anchored at the start by `re.match` in `_identify_important_files`) can
never match any crawled path. -/
theorem C9_no_dot_paths {V : Type} (encode : String → V) (t : FTree) :
    (∀ p ∈ ((get_file_structure encode t).1).map Prod.fst,
      startsDot p = false ∧ githubWorkflowMatch p = false) ∧
    (∀ p ∈ ((get_file_structure encode t).2.1).map Prod.fst,
      startsDot p = false ∧ githubWorkflowMatch p = false) ∧
    (∀ ps, (∃ x, fsLookupPath (get_file_structure encode t).2.2 ps = some x) →
      ps ≠ [] ∧ ∀ n ∈ ps, startsDot n = false) := by
  have hkey : ∀ p ∈ ((get_file_structure encode t).1).map Prod.fst,
      startsDot p = false := by
    intro p hp
    rw [show (get_file_structure encode t).1 = (reachableT t).filterMap (emitC "") from
      crawlTree_contents encode "" t] at hp
    rcases List.mem_map.mp hp with ⟨pv, hpv, hfst⟩
    rcases List.mem_filterMap.mp hpv with ⟨e, he, hee⟩
    unfold emitC at hee
    by_cases hem : emitsEntry e.2.1 e.2.2
    · simp only [hem, if_true, Option.some.injEq] at hee
      have hpath : pv.1 = pathOfComponents "" e.1 e.2.1 := by
        rw [← hee]
      obtain ⟨hds, hn⟩ := reachableT_no_dot t e he
      rw [← hfst, hpath]
      exact (pathOfComponents_dot e.1 "" e.2.1 hds hn).1 rfl
    · simp [hem] at hee
  have hgh : ∀ p, startsDot p = false → githubWorkflowMatch p = false := by
    intro p hdot
    cases hm : githubWorkflowMatch p with
    | false => rfl
    | true => rw [githubWorkflowMatch_startsDot p hm] at hdot; exact hdot
  refine ⟨fun p hp => ⟨hkey p hp, hgh p (hkey p hp)⟩, ?_, ?_⟩
  · intro p hp
    have hp2 : p ∈ ((get_file_structure encode t).1).map Prod.fst :=
      crawlTree_embkeys encode "" t p hp
    exact ⟨hkey p hp2, hgh p (hkey p hp2)⟩
  · intro ps hps
    refine fsLookupPath_clean ps (get_file_structure encode t).2.2 ?_ hps
    exact crawlTree_fs_clean encode "" t

/-- Witness for `C9_no_dot_paths` on the scenario tree: the nested path
`src/a.py` is crawled, starts without a dot, and cannot match the
GitHub Actions pattern. -/
theorem C9_no_dot_paths_witness :
    "src/a.py" ∈ ((get_file_structure encodeC8 treeC6).1).map Prod.fst ∧
    (startsDot "src/a.py" = false ∧ githubWorkflowMatch "src/a.py" = false) ∧
    (["src", "a.py"] ≠ [] ∧ ∀ n ∈ ["src", "a.py"], startsDot n = false) :=
  ⟨by decide,
   (C9_no_dot_paths encodeC8 treeC6).1 "src/a.py" (by decide),
   (C9_no_dot_paths encodeC8 treeC6).2.2 ["src", "a.py"] ⟨none, rfl⟩⟩

/-! ## C10 -/

/-- C10: after any crawl, every key of `file_embeddings` is also a key
of `file_contents` (an embedding is only stored right after the content
was stored), so the `file_contents[file_path]` access performed by
`search_relevant_files` for each selected path always succeeds — the
search never hits a `KeyError` (`none`). -/
theorem C10_embeddings_have_content {V β : Type} [LinearOrder β] (encode : String → V)
    (cosineSim : V → V → β) (t : FTree) (query : String) (top_k : Nat) :
    (∀ p ∈ ((get_file_structure encode t).2.1).map Prod.fst,
      p ∈ ((get_file_structure encode t).1).map Prod.fst) ∧
    ∃ out, search_relevant_files encode cosineSim (get_file_structure encode t).2.1
        (get_file_structure encode t).1 query top_k = some out := by
  refine ⟨crawlTree_embkeys encode "" t, ?_⟩
  set embs := (get_file_structure encode t).2.1 with hembs
  set conts := (get_file_structure encode t).1 with hconts
  by_cases hemp : embs.isEmpty
  · exact ⟨[], by unfold search_relevant_files; rw [hemp]; rfl⟩
  · have hbool : embs.isEmpty = false := by
      cases h : embs.isEmpty
      · rfl
      · exact absurd h hemp
    set sims := embs.map (fun pe => (pe.1, cosineSim (encode query) pe.2)) with hsims
    set takeL := (pySortedDescBy (fun x : String × β => x.2) sims).take top_k with htakeL
    have hmem : ∀ pv ∈ takeL, pv.1 ∈ conts.map Prod.fst := by
      intro pv hpv
      have hsimsmem : pv ∈ sims :=
        (pySortedDescBy_perm (fun x : String × β => x.2) sims).mem_iff.mp
          (List.mem_of_mem_take hpv)
      rcases List.mem_map.mp hsimsmem with ⟨pe, hpe, hpeq⟩
      have hkey : pv.1 ∈ embs.map Prod.fst := by
        rw [← hpeq]
        exact List.mem_map.mpr ⟨pe, hpe, rfl⟩
      exact crawlTree_embkeys encode "" t pv.1 hkey
    obtain ⟨out, hout, _⟩ := lookupContentPairs_some conts takeL hmem
    refine ⟨out, ?_⟩
    unfold search_relevant_files
    rw [hbool]
    exact hout

/-- Witness for `C10_embeddings_have_content` on the scenario tree. -/
theorem C10_embeddings_have_content_witness :
    "src/a.py" ∈ ((get_file_structure encodeC8 treeC6).2.1).map Prod.fst ∧
    "src/a.py" ∈ ((get_file_structure encodeC8 treeC6).1).map Prod.fst ∧
    ∃ out, search_relevant_files encodeC8 dotInt (get_file_structure encodeC8 treeC6).2.1
        (get_file_structure encodeC8 treeC6).1 "q" 2 = some out :=
  ⟨by decide,
   (C10_embeddings_have_content encodeC8 dotInt treeC6 "q" 2).1 "src/a.py" (by decide),
   (C10_embeddings_have_content encodeC8 dotInt treeC6 "q" 2).2⟩

/-- Witness for `C2_never_fetches`: the trace of the concrete failing
resolution contains the rev-parse operation, which is not a fetch, and
the result is structured. -/
theorem C2_never_fetches_witness :
    VcsOp.revParse "abc1234" ∈ (get_commit_by_hash failingRepo [] "abc1234" 200).2 ∧
    isFetchOp (VcsOp.revParse "abc1234") = false ∧
    ∃ r : ResolveResult,
      (get_commit_by_hash failingRepo [] "abc1234" 200).1 = Except.ok r :=
  ⟨by decide,
   (C2_never_fetches failingRepo [] "abc1234" 200).1 (VcsOp.revParse "abc1234") (by decide),
   (C2_never_fetches failingRepo [] "abc1234" 200).2⟩
